import Mathlib

set_option maxHeartbeats 1000000

namespace PS

/-! Shallow embedding of the upload/storage core of the Private_Storage
Flask application (src/app/utils.py, src/app/routes_main.py,
src/app/models.py).  Byte strings are `List Nat`; filesystem paths are
POSIX strings.  The Python string and `os.path` primitives used by the
code are re-implemented over `List Char` so that every definition is
executable and kernel-reducible. -/

/-- Python `str.startswith`, over the underlying character lists. -/
def strStartsWith (s p : String) : Bool := p.data.isPrefixOf s.data

/-- Python `str.split('/')` on a character list (keeps empty pieces,
exactly like `str.split` with an explicit separator). -/
def splitSlash : List Char → List (List Char)
  | [] => [[]]
  | c :: cs =>
    if c = '/' then [] :: splitSlash cs
    else
      match splitSlash cs with
      | s :: ss => (c :: s) :: ss
      | [] => [[c]]

/-- Path segments of a string path (split on `/`). -/
def pathSegs (p : String) : List String := (splitSlash p.data).map (fun cs => ⟨cs⟩)

/-- Segment resolution of POSIX `os.path.normpath` on an absolute path:
empty and `.` segments vanish and `..` pops the previous segment,
clamped at the root. -/
def normSegs (segs : List String) : List String :=
  segs.foldl (fun acc s =>
    if s = "" ∨ s = "." then acc
    else if s = ".." then acc.dropLast
    else acc ++ [s]) []

/-- `os.path.abspath` for the absolute POSIX paths the application
builds from its configured upload folder. -/
def abspath (p : String) : String :=
  match normSegs (pathSegs p) with
  | [] => "/"
  | segs => segs.foldl (fun acc s => acc ++ "/" ++ s) ""

/-- Two-argument POSIX `os.path.join`. -/
def pjoin (a b : String) : String :=
  if strStartsWith b "/" then b
  else if a = "" then b
  else if a.data.getLast? = some '/' then a ++ b
  else a ++ "/" ++ b

/-- Python `str.replace('\\', '/')`. -/
def slashify (s : String) : String :=
  ⟨s.data.map (fun c => if c = '\\' then '/' else c)⟩

/-- Decimal digit characters, used by Python f-string rendering of an
integer. -/
def digitChar10 : Nat → Char
  | 0 => '0' | 1 => '1' | 2 => '2' | 3 => '3' | 4 => '4'
  | 5 => '5' | 6 => '6' | 7 => '7' | 8 => '8' | _ => '9'

/-- Little-endian decimal digits of `n`, with structural fuel so the
kernel can evaluate it. -/
def natDigitsRev : Nat → Nat → List Char
  | 0, _ => []
  | fuel + 1, n => if n = 0 then [] else digitChar10 (n % 10) :: natDigitsRev fuel (n / 10)

/-- Decimal rendering of a natural number (Python `f"{n}"` / `str(n)`). -/
def natRepr (n : Nat) : String :=
  if n = 0 then "0" else ⟨(natDigitsRev n n).reverse⟩

/-- Value of a little-endian decimal digit list; inverse of
`natDigitsRev`, used to prove `natRepr` injective. -/
def rdVal : List Char → Nat
  | [] => 0
  | c :: cs => (c.toNat - 48) + 10 * rdVal cs

/-- Characters replaced by `_` in `safe_filename` (the OS-forbidden
set `\ / : * ? " < > |`). -/
def forbiddenChar (c : Char) : Bool :=
  c == '\\' || c == '/' || c == ':' || c == '*' || c == '?' ||
  c == '"' || c == '<' || c == '>' || c == '|'

/-- Whitespace stripped by Python `str.strip()` (the ASCII subset that
can actually occur here). -/
def pyIsSpace (c : Char) : Bool :=
  c == ' ' || c == '\t' || c == '\n' || c == '\r' || c == '\x0b' || c == '\x0c'

/-- Python `str.strip()`. -/
def pyStrip (cs : List Char) : List Char :=
  ((cs.dropWhile pyIsSpace).reverse.dropWhile pyIsSpace).reverse

/-- `re.sub(r'^\.+', '_', s)`: a maximal leading run of dots becomes a
single underscore. -/
def stripLeadingDots (cs : List Char) : List Char :=
  if cs.head? = some '.' then '_' :: cs.dropWhile (fun c => c == '.') else cs

/-- `safe_filename` from app/utils.py.  Unicode NFC normalisation is
kept abstract as the parameter `nfc`; the forbidden-character
substitution, leading-dot replacement and final strip follow the
source order. -/
def safe_filename (nfc : String → String) (filename : String) : String :=
  if filename = "" then ""
  else
    let s1 := nfc filename
    let s2 := s1.data.map (fun c => if forbiddenChar c then '_' else c)
    ⟨pyStrip (stripLeadingDots s2)⟩

/-- `os.path.splitext` on a basename (every name it is applied to here
has already been sanitised, so contains no `/`). -/
def splitext (name : String) : String × String :=
  let cs := name.data
  let extRev := cs.reverse.takeWhile (fun c => c != '.')
  if extRev.length = cs.length then (name, "")
  else
    let idx := cs.length - extRev.length - 1
    let core := cs.take idx
    if core.all (fun c => c == '.') then (name, "")
    else (⟨core⟩, ⟨cs.drop idx⟩)

/-! Data model: per-user filesystem state and metadata store. -/

/-- One structured metadata value: `{'hash': ..., 'share_token': ...}`. -/
structure MetaEntry where
  hash : Option String
  shareToken : Option String
deriving DecidableEq

/-- Persisted metadata values: the structured record, or a bare legacy
digest string (migrated on load). -/
inductive MetaVal where
  | legacy (h : String)
  | entry (e : MetaEntry)
deriving DecidableEq

/-- One user's metadata.json document: an ordered mapping from a
slash-separated relative path to its value. -/
abbrev Metadata := List (String × MetaVal)

/-- Association-list lookup (first match), modelling Python dict read. -/
def alget {α β : Type} [DecidableEq α] : List (α × β) → α → Option β
  | [], _ => none
  | (k', v) :: rest, k => if k' = k then some v else alget rest k

/-- Python dict key test. -/
def alhas {α β : Type} [DecidableEq α] (m : List (α × β)) (k : α) : Bool :=
  m.any (fun p => p.1 = k)

/-- Python dict assignment: update in place when the key exists, append
otherwise. -/
def alset {α β : Type} [DecidableEq α] (m : List (α × β)) (k : α) (v : β) : List (α × β) :=
  if alhas m k then m.map (fun p => if p.1 = k then (k, v) else p)
  else m ++ [(k, v)]

/-- Python `del d[k]`. -/
def aldel {α β : Type} [DecidableEq α] (m : List (α × β)) (k : α) : List (α × β) :=
  m.filter (fun p => p.1 ≠ k)

/-- Migration applied by `load_metadata`: a bare string digest becomes
`{'hash': value, 'share_token': None}`. -/
def migrateVal : MetaVal → MetaVal
  | .legacy h => .entry ⟨some h, none⟩
  | v => v

/-- `load_metadata` from app/utils.py: the parsed document with legacy
bare-string values normalised (the write-back only changes the
persisted bytes of metadata.json). -/
def load_metadata (m : Metadata) : Metadata :=
  m.map (fun p => (p.1, migrateVal p.2))

/-- The two User columns the storage core reads (src/app/models.py). -/
structure UserRec where
  id : Nat
  quota_bytes : Nat
  used_bytes : Nat
deriving DecidableEq

/-- `User.has_space` from src/app/models.py:
`(self.used_bytes + size) <= self.quota_bytes`. -/
def has_space (u : UserRec) (size : Nat) : Bool :=
  decide (u.used_bytes + size ≤ u.quota_bytes)

/-- State of one user's storage area.  `files` maps the normalised
relative path under the user's root to the file bytes; `dirs` lists the
explicitly created directories; `metadata`/`metaSize` are the parsed
content and the physical byte size of metadata.json; `tempChunks` maps
an upload id to the chunk files (index-named) in its chunk directory
under `UPLOAD_FOLDER/temp/<uid>/<upload_id>`. -/
structure UserFS where
  files : List (String × List Nat)
  dirs : List String
  metadata : Metadata
  metaSize : Nat
  tempChunks : List (String × List (Nat × List Nat))
deriving DecidableEq

/-- Oracles for the effects the code defers to libraries: the SHA-256
digest (a function of the exact bytes fed to it), Unicode NFC
normalisation inside `safe_filename`, the next `uuid.uuid4()` value and
the serialized size of a metadata document written by `json.dump`. -/
structure Env where
  hash : List Nat → String
  nfc : String → String
  uuid : String
  encSize : Metadata → Nat

/-- `calculate_file_hash`: the 4096-byte block loop feeds exactly the
full stream contents to the SHA-256 object, then rewinds the stream;
the digest is therefore `env.hash` of the content. -/
def calculate_file_hash (env : Env) (content : List Nat) : String := env.hash content

/-- `calculate_file_hash_from_path`: same block loop reading from disk. -/
def calculate_file_hash_from_path (env : Env) (content : List Nat) : String := env.hash content

/-- config.py `UPLOAD_FOLDER`: an absolute directory next to the
application (a representative concrete value). -/
def UPLOAD_FOLDER : String := "/srv/private_storage/uploads"

/-- `get_user_upload_dir`: `os.path.join(UPLOAD_FOLDER, str(user_id))`. -/
def get_user_upload_dir (uid : Nat) : String := pjoin UPLOAD_FOLDER (natRepr uid)

/-- The per-user temp area `os.path.join(UPLOAD_FOLDER, 'temp', str(user_id))`. -/
def user_temp_dir (uid : Nat) : String := pjoin (pjoin UPLOAD_FOLDER "temp") (natRepr uid)

/-- Disk path of an upload's chunk directory. -/
def get_chunk_dir_path (uid : Nat) (upload_id : String) : String :=
  pjoin (user_temp_dir uid) upload_id

/-- Disk path of one chunk file (`f"{chunk_index}"` inside the chunk
directory). -/
def chunk_file_path (uid : Nat) (upload_id : String) (i : Nat) : String :=
  pjoin (get_chunk_dir_path uid upload_id) (natRepr i)

/-- `get_temp_usage`: `os.walk` over the user's temp area summing every
chunk file's size. -/
def get_temp_usage (fs : UserFS) : Nat :=
  (fs.tempChunks.map (fun u => (u.2.map (fun c => c.2.length)).sum)).sum

/-- `os.path.isdir` relative to the user root: an explicitly created
directory, or one implied by a deeper file. -/
def isDirEntry (fs : UserFS) (rel : String) : Bool :=
  fs.dirs.contains rel || fs.files.any (fun p => strStartsWith p.1 (rel ++ "/"))

/-- `os.path.exists` relative to the user root. -/
def existsRel (fs : UserFS) (rel : String) : Bool :=
  alhas fs.files rel || isDirEntry fs rel

/-- Relative join used for `rel_path`/`meta_key` construction
(`os.path.join(subpath, name)` with both arguments normal). -/
def relJoin (sub n : String) : String := if sub = "" then n else sub ++ "/" ++ n

/-- Chain of ancestors of a relative path, used to model `os.makedirs`. -/
def ancestors (p : String) : List String :=
  let segs := pathSegs p
  (List.range segs.length).map (fun i => String.intercalate "/" (segs.take (i + 1)))

/-- `os.makedirs(target_dir)` guarded by the `os.path.exists` check in
the source. -/
def mkdirs (fs : UserFS) (sub : String) : UserFS :=
  if sub = "" then fs
  else if existsRel fs sub then fs
  else { fs with dirs := fs.dirs ++ (ancestors sub).filter (fun d => ¬ existsRel fs d) }

/-- The auto-rename loop of `save_file`/`merge_chunks`:
`while os.path.exists(file_path): filename = f"{base}_{counter}{ext}"`.
`fuel` is a modelling bound on the number of iterations; the operations
pass a bound large enough that a free name is always reached. -/
def renameLoop (ex : String → Bool) (base ext : String) : Nat → Nat → String → String
  | 0, _, current => current
  | fuel + 1, counter, current =>
    if ex current then
      renameLoop ex base ext fuel (counter + 1) (base ++ "_" ++ natRepr counter ++ ext)
    else current

/-- Candidate name tried by the rename loop for a given counter. -/
def candName (base ext : String) (k : Nat) : String := base ++ "_" ++ natRepr k ++ ext

/-- Result of `save_file`/`merge_chunks`: the `(filename, error)` pair
of the source plus the post-state. -/
structure OpRes where
  name : Option String
  err : Option String
  fs : UserFS
deriving DecidableEq

/-- `save_file(file, user, subpath)` from app/utils.py.  `content` is
the incoming stream's bytes (its size is what seek/tell measures) and
`origName` is `file.filename`; `allowed_file` always returns True. -/
def save_file (env : Env) (user : UserRec) (content : List Nat) (origName : String)
    (subpath : String) (fs : UserFS) : OpRes :=
  let file_size := content.length
  let temp_usage := get_temp_usage fs
  if ¬ has_space user (file_size + temp_usage) then ⟨none, some "Quota exceeded.", fs⟩
  else
    let fn0 := safe_filename env.nfc origName
    let filename := if fn0 = "" then env.uuid else fn0
    let upload_dir := get_user_upload_dir user.id
    let target_dir := pjoin upload_dir subpath
    if ¬ strStartsWith (abspath target_dir) (abspath upload_dir) then
      ⟨none, some "Invalid path", fs⟩
    else
      let fs1 := mkdirs fs subpath
      let be := splitext filename
      let fuel := fs1.files.length + fs1.dirs.length + 2
      let finalName :=
        renameLoop (fun n => existsRel fs1 (relJoin subpath n)) be.1 be.2 fuel 1 filename
      let file_hash := calculate_file_hash env content
      let fs2 := { fs1 with files := alset fs1.files (relJoin subpath finalName) content }
      let md := load_metadata fs2.metadata
      let meta_key := if subpath ≠ "" then slashify (relJoin subpath finalName) else finalName
      let md2 := alset md meta_key (.entry ⟨some file_hash, none⟩)
      ⟨some finalName, none, { fs2 with metadata := md2, metaSize := env.encSize md2 }⟩

/-- `delete_user_file` from app/utils.py (the path it removes is a
regular file in every reachable use: the route URL has one segment and
`safe_filename` replaces separators). -/
def delete_user_file (env : Env) (fs : UserFS) (filename0 : String) : Bool × UserFS :=
  let filename := safe_filename env.nfc filename0
  if alhas fs.files filename then
    let fs1 := { fs with files := aldel fs.files filename }
    let md := load_metadata fs1.metadata
    if alhas md filename then
      let md2 := aldel md filename
      (true, { fs1 with metadata := md2, metaSize := env.encSize md2 })
    else (true, { fs1 with metadata := md })
  else (false, fs)

/-- First segment of a relative path. -/
def firstSeg (p : String) : String := ⟨p.data.takeWhile (fun c => c != '/')⟩

/-- Order-preserving de-duplication, modelling the set of names
`os.listdir` returns. -/
def dedup (l : List String) : List String :=
  l.foldl (fun acc s => if acc.contains s then acc else acc ++ [s]) []

/-- Name of the immediate child of `sub` through which the path `p`
passes, if any. -/
def childName (sub : String) (p : String) : Option String :=
  if sub = "" then (if p = "" then none else some (firstSeg p))
  else if strStartsWith p (sub ++ "/") then
    let rest : String := ⟨p.data.drop (sub.data.length + 1)⟩
    if rest = "" then none else some (firstSeg rest)
  else none

/-- `os.listdir` of a directory under the user root (metadata.json is
modelled separately and is filtered out by `get_user_files` anyway). -/
def listdir (fs : UserFS) (sub : String) : List String :=
  dedup ((fs.files.map (fun p => p.1) ++ fs.dirs).filterMap (childName sub))

/-- One row of the listing produced by `get_user_files`. -/
structure FileInfo where
  name : String
  ftype : String
  size : Nat
  path : String
  shareToken : Option String
deriving DecidableEq

/-- `get_user_files` from app/utils.py: immediate children of `sub`,
folders with size 0, files joined with their metadata. -/
def get_user_files (fs : UserFS) (uid : Nat) (sub : String) : List FileInfo :=
  let upload_dir := get_user_upload_dir uid
  let target_dir := pjoin upload_dir sub
  if ¬ strStartsWith (abspath target_dir) (abspath upload_dir) then []
  else
    let md := load_metadata fs.metadata
    (listdir fs sub).filterMap (fun f =>
      let rel := relJoin sub f
      if isDirEntry fs rel then some ⟨f, "folder", 0, rel, none⟩
      else if alhas fs.files rel && f != "metadata.json" then
        let size := ((alget fs.files rel).getD []).length
        let meta_key := if sub ≠ "" then rel else f
        let tok :=
          match alget md meta_key with
          | some (.entry e) => e.shareToken
          | _ => none
        some ⟨f, "file", size, rel, tok⟩
      else none)

/-- Digest the code would compare against, with Python falsiness: a
missing entry, a missing `hash` field or an empty string all count as
"no stored digest". -/
def stored_digest (fs : UserFS) (fn : String) : Option String :=
  match alget (load_metadata fs.metadata) fn with
  | none => none
  | some (.legacy s) => if s = "" then none else some s
  | some (.entry e) =>
    match e.hash with
    | none => none
    | some s => if s = "" then none else some s

/-- `verify_file_integrity` from app/utils.py.  Opening a directory
would raise in Python, so the on-disk lookup is over regular files. -/
def verify_file_integrity (env : Env) (fs : UserFS) (filename : String) : Bool :=
  match alget (load_metadata fs.metadata) filename with
  | none => true
  | some mv =>
    let stored := match mv with
      | .legacy s => some s
      | .entry e => e.hash
    match stored with
    | none => true
    | some sh =>
      if sh = "" then true
      else
        match alget fs.files filename with
        | none => false
        | some content => calculate_file_hash_from_path env content == sh

/-- `get_chunk_dir` from app/utils.py: creates the chunk directory when
it does not exist yet. -/
def get_chunk_dir (fs : UserFS) (upload_id : String) : UserFS :=
  if alhas fs.tempChunks upload_id then fs
  else { fs with tempChunks := fs.tempChunks ++ [(upload_id, [])] }

/-- Result of `save_chunk`: the `(success, error)` pair plus post-state. -/
structure ChunkRes where
  ok : Bool
  err : Option String
  fs : UserFS
deriving DecidableEq

/-- `save_chunk` from app/utils.py. -/
def save_chunk (user : UserRec) (upload_id : String) (chunk_index : Nat)
    (chunk : List Nat) (fs : UserFS) : ChunkRes :=
  let temp_usage := get_temp_usage fs
  if ¬ has_space user (chunk.length + temp_usage) then ⟨false, some "Quota exceeded.", fs⟩
  else
    let fs1 := get_chunk_dir fs upload_id
    let cur := (alget fs1.tempChunks upload_id).getD []
    ⟨true, none, { fs1 with tempChunks := alset fs1.tempChunks upload_id (alset cur chunk_index chunk) }⟩

/-- Characters admitted by the strict safe-token pattern. -/
def safeTokenChar (c : Char) : Bool := c.isAlphanum || c == '-' || c == '_'

/-- Modelled from the spec: `is_safe_upload_id` is imported by
app/routes_main.py from app.utils, but its definition is not present
under src/.  Spec §4.4: the upload id "must match a strict safe-token
pattern; reject path-separator or traversal characters" before touching
disk. -/
def is_safe_upload_id (s : String) : Bool :=
  s != "" && s.data.all safeTokenChar

/-- The `upload_chunk` route handler from app/routes_main.py (HTTP
status, error message, post-state).  The safe-id guard runs before
`save_chunk` is called. -/
def upload_chunk_route (user : UserRec) (upload_id : String) (chunk_index : Nat)
    (chunk : List Nat) (fs : UserFS) : (Nat × Option String) × UserFS :=
  if ¬ is_safe_upload_id upload_id then ((400, some "Invalid upload_id"), fs)
  else
    let r := save_chunk user upload_id chunk_index chunk fs
    if r.ok then ((200, none), r.fs) else ((400, r.err), r.fs)

/-- `delete_upload_chunks` from app/utils.py. -/
def delete_upload_chunks (fs : UserFS) (upload_id : String) : Bool × UserFS :=
  if alhas fs.tempChunks upload_id then
    (true, { fs with tempChunks := aldel fs.tempChunks upload_id })
  else (false, fs)

/-- First index in `0 .. total-1` whose chunk file is absent, as probed
by the `os.path.exists` loop in `merge_chunks`. -/
def firstMissing (chunks : List (Nat × List Nat)) (total : Nat) : Option Nat :=
  (List.range total).find? (fun i => ¬ alhas chunks i)

/-- `merge_chunks` from app/utils.py.  Note that `get_chunk_dir` creates
the chunk directory up front, that the missing-chunk and invalid-path
failures return without removing it, and that the quota rejection and
the success path both remove it. -/
def merge_chunks (env : Env) (user : UserRec) (upload_id : String) (origName : String)
    (total_chunks : Nat) (subpath : String) (fs : UserFS) : OpRes :=
  let fs0 := get_chunk_dir fs upload_id
  let chunks := (alget fs0.tempChunks upload_id).getD []
  match firstMissing chunks total_chunks with
  | some i => ⟨none, some ("Missing chunk " ++ natRepr i), fs0⟩
  | none =>
    let total_size := ((List.range total_chunks).map (fun i => ((alget chunks i).getD []).length)).sum
    if ¬ has_space user total_size then
      ⟨none, some "Quota exceeded.", { fs0 with tempChunks := aldel fs0.tempChunks upload_id }⟩
    else
      let fn0 := safe_filename env.nfc origName
      let filename := if fn0 = "" then env.uuid else fn0
      let upload_dir := get_user_upload_dir user.id
      let target_dir := pjoin upload_dir subpath
      if ¬ strStartsWith (abspath target_dir) (abspath upload_dir) then
        ⟨none, some "Invalid path", fs0⟩
      else
        let fs1 := mkdirs fs0 subpath
        let be := splitext filename
        let fuel := fs1.files.length + fs1.dirs.length + 2
        let finalName :=
          renameLoop (fun n => existsRel fs1 (relJoin subpath n)) be.1 be.2 fuel 1 filename
        let content := ((List.range total_chunks).map (fun i => (alget chunks i).getD [])).flatten
        let fs2 := { fs1 with files := alset fs1.files (relJoin subpath finalName) content }
        let file_hash := calculate_file_hash_from_path env content
        let md := load_metadata fs2.metadata
        let meta_key := if subpath ≠ "" then slashify (relJoin subpath finalName) else finalName
        let md2 := alset md meta_key (.entry ⟨some file_hash, none⟩)
        ⟨some finalName, none,
          { fs2 with metadata := md2, metaSize := env.encSize md2,
                     tempChunks := aldel fs2.tempChunks upload_id }⟩

/-- `generate_share_token` from app/utils.py. -/
def generate_share_token (env : Env) (fs : UserFS) (filename : String) : Option String × UserFS :=
  let md := load_metadata fs.metadata
  if ¬ alhas md filename then (none, { fs with metadata := md })
  else
    let token := env.uuid
    let md2 := md.map (fun p =>
      if p.1 = filename then
        (p.1, match p.2 with
          | .legacy h => MetaVal.entry ⟨some h, some token⟩
          | .entry e => MetaVal.entry ⟨e.hash, some token⟩)
      else p)
    (some token, { fs with metadata := md2, metaSize := env.encSize md2 })

/-- `revoke_share_token` from app/utils.py. -/
def revoke_share_token (env : Env) (fs : UserFS) (filename : String) : Bool × UserFS :=
  let md := load_metadata fs.metadata
  match alget md filename with
  | some (.entry e) =>
    let md2 := alset md filename (.entry ⟨e.hash, none⟩)
    (true, { fs with metadata := md2, metaSize := env.encSize md2 })
  | _ => (false, { fs with metadata := md })

/-- The multi-user view `get_file_by_token` scans: the directory names
under UPLOAD_FOLDER (user ids, plus possibly 'temp') with each user's
stored metadata document. -/
abbrev Store := List (String × Metadata)

/-- `get_file_by_token` from app/utils.py: linear scan over every
user's metadata, first match wins, `temp` skipped. -/
def get_file_by_token (store : Store) (token : String) : Option String × Option String :=
  match store.findSome? (fun u =>
    if u.1 = "temp" then none
    else (load_metadata u.2).findSome? (fun p =>
      match p.2 with
      | .entry e => if e.shareToken = some token then some (u.1, p.1) else none
      | .legacy _ => none)) with
  | some r => (some r.1, some r.2)
  | none => (none, none)

/-- `delete_user_folder` from app/utils.py. -/
def delete_user_folder (env : Env) (fs : UserFS) (uid : Nat) (folder_path : String) :
    (Bool × Option String) × UserFS :=
  let upload_dir := get_user_upload_dir uid
  let target_dir := pjoin upload_dir folder_path
  if ¬ strStartsWith (abspath target_dir) (abspath upload_dir) then
    ((false, some "Invalid path"), fs)
  else if ¬ existsRel fs folder_path then ((false, some "Folder not found"), fs)
  else if ¬ isDirEntry fs folder_path then ((false, some "Not a folder"), fs)
  else
    let fs1 := { fs with
      files := fs.files.filter (fun p => !strStartsWith p.1 (folder_path ++ "/")),
      dirs := fs.dirs.filter (fun d => !(d == folder_path || strStartsWith d (folder_path ++ "/"))) }
    let md := load_metadata fs1.metadata
    let pre0 := slashify folder_path
    let pre1 := if pre0.data.getLast? = some '/' then pre0 else pre0 ++ "/"
    let md2 := md.filter (fun p => !strStartsWith p.1 pre1)
    let changed := md.any (fun p => strStartsWith p.1 pre1)
    ((true, none),
      { fs1 with metadata := md2, metaSize := if changed then env.encSize md2 else fs1.metaSize })

/-- Physical byte total of the user's root as computed by the `os.walk`
loop in the `delete_folder` route: every regular file under the root,
metadata.json included. -/
def walk_total (fs : UserFS) : Nat :=
  (fs.files.map (fun p => p.2.length)).sum + fs.metaSize

/-- The `/delete/<filename>` route from app/routes_main.py: on a
successful delete, `used_bytes` is recomputed as the sum of the sizes
reported by `get_user_files` on the root (immediate children only). -/
def delete_file_route (env : Env) (user : UserRec) (filename : String) (fs : UserFS) :
    UserRec × UserFS :=
  let r := delete_user_file env fs filename
  if r.1 then
    ({ user with used_bytes := ((get_user_files r.2 user.id "").map (fun fi => fi.size)).sum }, r.2)
  else (user, r.2)

/-- The `/delete_folder` route from app/routes_main.py.
`delete_user_folder` returns a non-empty tuple, which is always truthy
in Python, so the full-`os.walk` recompute runs on success and failure
alike. -/
def delete_folder_route (env : Env) (user : UserRec) (folder_path : String) (fs : UserFS) :
    UserRec × UserFS :=
  let r := delete_user_folder env fs user.id folder_path
  ({ user with used_bytes := walk_total r.2 }, r.2)

/-! Lemma layer: decimal rendering. -/

theorem digitChar10_toNat {d : Nat} (hd : d < 10) : (digitChar10 d).toNat - 48 = d := by
  interval_cases d <;> rfl

theorem digitChar10_isDigit {d : Nat} (hd : d < 10) :
    '0'.toNat ≤ (digitChar10 d).toNat ∧ (digitChar10 d).toNat ≤ '9'.toNat := by
  interval_cases d <;> exact ⟨by decide, by decide⟩

theorem rdVal_natDigitsRev : ∀ fuel n, n ≤ fuel → rdVal (natDigitsRev fuel n) = n := by
  intro fuel
  induction fuel with
  | zero => intro n hn; interval_cases n; rfl
  | succ fuel ih =>
    intro n hn
    by_cases h0 : n = 0
    · subst h0; simp [natDigitsRev, rdVal]
    · have hpos : 0 < n := Nat.pos_of_ne_zero h0
      have hdiv : n / 10 < n := Nat.div_lt_self hpos (by omega)
      have hle : n / 10 ≤ fuel := by omega
      have hmod : n % 10 < 10 := Nat.mod_lt _ (by omega)
      simp only [natDigitsRev, h0, if_false, rdVal]
      rw [ih _ hle, digitChar10_toNat hmod]
      omega

theorem natDigitsRev_ne_nil (fuel n : Nat) (h0 : 0 < n) (hf : 0 < fuel) :
    natDigitsRev fuel n ≠ [] := by
  cases fuel with
  | zero => omega
  | succ fuel =>
    have : n ≠ 0 := by omega
    simp [natDigitsRev, this]

/-- Decoder inverting `natRepr`. -/
def natReprVal (s : String) : Nat := rdVal s.data.reverse

theorem natReprVal_natRepr (n : Nat) : natReprVal (natRepr n) = n := by
  by_cases h0 : n = 0
  · subst h0; rfl
  · simp only [natRepr, h0, if_false, natReprVal]
    show rdVal (natDigitsRev n n).reverse.reverse = n
    rw [List.reverse_reverse]
    exact rdVal_natDigitsRev n n le_rfl

theorem natRepr_injective {n m : Nat} (h : natRepr n = natRepr m) : n = m := by
  have h1 := natReprVal_natRepr n
  rw [h, natReprVal_natRepr] at h1
  omega

theorem natDigitsRev_digits : ∀ fuel n, ∀ c ∈ natDigitsRev fuel n,
    '0'.toNat ≤ c.toNat ∧ c.toNat ≤ '9'.toNat := by
  intro fuel
  induction fuel with
  | zero => intro n c hc; simp [natDigitsRev] at hc
  | succ fuel ih =>
    intro n c hc
    by_cases h0 : n = 0
    · simp [natDigitsRev, h0] at hc
    · simp only [natDigitsRev, h0, if_false, List.mem_cons] at hc
      rcases hc with hc | hc
      · subst hc; exact digitChar10_isDigit (Nat.mod_lt _ (by omega))
      · exact ih _ c hc

theorem natRepr_digits {n : Nat} : ∀ c ∈ (natRepr n).data,
    '0'.toNat ≤ c.toNat ∧ c.toNat ≤ '9'.toNat := by
  intro c hc
  by_cases h0 : n = 0
  · simp only [natRepr, h0, if_true] at hc
    have : c = '0' := by simpa using hc
    subst this; exact ⟨le_rfl, by decide⟩
  · simp only [natRepr, h0, if_false, List.mem_reverse] at hc
    exact natDigitsRev_digits n n c hc

theorem natRepr_ne_empty {n : Nat} : (natRepr n).data ≠ [] := by
  by_cases h0 : n = 0
  · simp [natRepr, h0]
  · simp only [natRepr, h0, if_false]
    intro h
    exact natDigitsRev_ne_nil n n (by omega) (by omega) (by simpa using h)

theorem natRepr_no_special {n : Nat} : ∀ c ∈ (natRepr n).data, c ≠ '/' ∧ c ≠ '.' ∧ c ≠ '\\' := by
  intro c hc
  have h := natRepr_digits c hc
  have hval : 48 ≤ c.toNat ∧ c.toNat ≤ 57 := by
    simpa using h
  refine ⟨?_, ?_, ?_⟩ <;> intro he <;> subst he <;> simp at hval

theorem natRepr_ne_names {n : Nat} : natRepr n ≠ "" ∧ natRepr n ≠ "." ∧ natRepr n ≠ ".." := by
  refine ⟨?_, ?_, ?_⟩ <;> intro he
  · exact natRepr_ne_empty (by rw [he])
  · have : '.' ∈ (natRepr n).data := by rw [he]; simp [String.data]
    exact (natRepr_no_special '.' this).2.1 rfl
  · have : '.' ∈ (natRepr n).data := by rw [he]; simp [String.data]
    exact (natRepr_no_special '.' this).2.1 rfl

/-! Lemma layer: string and path algebra. -/

theorem str_data_append (a b : String) : (a ++ b).data = a.data ++ b.data := rfl

theorem str_append_empty (a : String) : a ++ "" = a := String.append_empty a

theorem splitSlash_ne_nil : ∀ cs : List Char, splitSlash cs ≠ [] := by
  intro cs
  induction cs with
  | nil => simp [splitSlash]
  | cons c rest ih =>
    simp only [splitSlash]
    by_cases hc : c = '/'
    · simp [hc]
    · simp only [hc, if_false]
      cases h : splitSlash rest with
      | nil => simp
      | cons s ss => simp

theorem splitSlash_append_slash : ∀ xs ys : List Char,
    splitSlash (xs ++ '/' :: ys) = splitSlash xs ++ splitSlash ys := by
  intro xs ys
  induction xs with
  | nil => simp [splitSlash]
  | cons c rest ih =>
    by_cases hc : c = '/'
    · subst hc
      show splitSlash ('/' :: (rest ++ '/' :: ys)) = splitSlash ('/' :: rest) ++ splitSlash ys
      rw [show splitSlash ('/' :: (rest ++ '/' :: ys)) = [] :: splitSlash (rest ++ '/' :: ys) from rfl,
        show splitSlash ('/' :: rest) = [] :: splitSlash rest from rfl, ih]
      rfl
    · cases h : splitSlash rest with
      | nil => exact absurd h (splitSlash_ne_nil rest)
      | cons s ss =>
        show splitSlash (c :: (rest ++ '/' :: ys)) = splitSlash (c :: rest) ++ splitSlash ys
        rw [show splitSlash (c :: (rest ++ '/' :: ys)) =
            (match splitSlash (rest ++ '/' :: ys) with
              | s :: ss => (c :: s) :: ss
              | [] => [[c]]) by simp [splitSlash, hc],
          show splitSlash (c :: rest) =
            (match splitSlash rest with
              | s :: ss => (c :: s) :: ss
              | [] => [[c]]) by simp [splitSlash, hc],
          ih, h]
        rfl

theorem splitSlash_no_slash : ∀ cs : List Char, (∀ c ∈ cs, c ≠ '/') → splitSlash cs = [cs] := by
  intro cs h
  induction cs with
  | nil => rfl
  | cons c rest ih =>
    have hc : c ≠ '/' := h c (by simp)
    have hrest := ih (fun x hx => h x (by simp [hx]))
    simp only [splitSlash, hc, if_false, hrest]

theorem normSegs_append_normal (l : List String) (s : String)
    (h1 : s ≠ "") (h2 : s ≠ ".") (h3 : s ≠ "..") :
    normSegs (l ++ [s]) = normSegs l ++ [s] := by
  simp [normSegs, List.foldl_append, h1, h2, h3]

theorem normSegs_append_empty (l : List String) :
    normSegs (l ++ [""]) = normSegs l := by
  simp [normSegs, List.foldl_append]

theorem pathSegs_append_seg (p s : String) :
    pathSegs (p ++ "/" ++ s) = pathSegs p ++ pathSegs s := by
  unfold pathSegs
  rw [show (p ++ "/" ++ s).data = p.data ++ '/' :: s.data by
    rw [str_data_append, str_data_append]; simp]
  rw [splitSlash_append_slash, List.map_append]

theorem pathSegs_no_slash (s : String) (h : ∀ c ∈ s.data, c ≠ '/') :
    pathSegs s = [s] := by
  unfold pathSegs
  rw [splitSlash_no_slash s.data h]
  rfl

theorem abspath_append_seg (p s : String)
    (hs : ∀ c ∈ s.data, c ≠ '/') (h1 : s ≠ "") (h2 : s ≠ ".") (h3 : s ≠ "..")
    (hne : normSegs (pathSegs p) ≠ []) :
    abspath (p ++ "/" ++ s) = abspath p ++ "/" ++ s := by
  unfold abspath
  rw [pathSegs_append_seg, pathSegs_no_slash s hs, normSegs_append_normal _ s h1 h2 h3]
  cases hn : normSegs (pathSegs p) with
  | nil => exact absurd hn hne
  | cons a l =>
    simp only [List.cons_append, List.foldl_append, List.foldl_cons, List.foldl_nil]

theorem abspath_trailing_slash (p : String) : abspath (p ++ "/") = abspath p := by
  unfold abspath
  rw [show pathSegs (p ++ "/") = pathSegs p ++ [""] by
    unfold pathSegs
    rw [show (p ++ "/").data = p.data ++ '/' :: [] from rfl, splitSlash_append_slash]
    simp [splitSlash]]
  rw [normSegs_append_empty]

theorem strStartsWith_slash_false {b : String} (h : ∀ c ∈ b.data, c ≠ '/') :
    strStartsWith b "/" = false := by
  unfold strStartsWith
  cases hb : b.data with
  | nil => rfl
  | cons c t =>
    have hc : c ≠ '/' := h c (by rw [hb]; simp)
    show List.isPrefixOf ['/'] (c :: t) = false
    simp [List.isPrefixOf, Ne.symm hc]

theorem strStartsWith_self (s : String) : strStartsWith s s = true := by
  unfold strStartsWith
  simp [List.isPrefixOf_iff_prefix]

theorem pjoin_normal (a b : String) (hb : ∀ c ∈ b.data, c ≠ '/')
    (ha : a ≠ "") (hlast : a.data.getLast? ≠ some '/') :
    pjoin a b = a ++ "/" ++ b := by
  unfold pjoin
  rw [strStartsWith_slash_false hb]
  simp [ha, hlast]

/-! Lemma layer: association lists and strings. -/

theorem str_ext {a b : String} (h : a.data = b.data) : a = b :=
  congrArg String.mk h

theorem alhas_aldel {α β : Type} [DecidableEq α] (m : List (α × β)) (k : α) :
    alhas (aldel m k) k = false := by
  rw [show alhas (aldel m k) k = ((aldel m k).any (fun p => decide (p.1 = k))) from rfl,
    List.any_eq_false]
  intro x hx
  have hne : x.1 ≠ k := by
    have := List.of_mem_filter hx
    simpa using this
  simpa using hne

theorem alget_filter_bool {β : Type} (m : List (String × β)) (f : String → Bool) (k : String) :
    alget (m.filter (fun p => !f p.1)) k = if f k then none else alget m k := by
  induction m with
  | nil => simp [alget]
  | cons p rest ih =>
    by_cases hf : f p.1 = true
    · by_cases hk : p.1 = k
      · subst hk; simp [List.filter_cons, hf, ih, alget]
      · simp [List.filter_cons, hf, ih, alget, hk]
    · have hf' : f p.1 = false := by simpa using hf
      by_cases hk : p.1 = k
      · subst hk; simp [List.filter_cons, hf', alget]
      · simp [List.filter_cons, hf', alget, hk, ih]

theorem slashify_id {s : String} (h : ∀ c ∈ s.data, c ≠ '\\') : slashify s = s := by
  apply str_ext
  show s.data.map _ = s.data
  refine (List.map_congr_left ?_).trans s.data.map_id
  intro c hc
  simp [h c hc]

theorem missing_ne_quota (i : Nat) : ("Missing chunk " ++ natRepr i) ≠ "Quota exceeded." := by
  intro h
  have hd : ("Missing chunk " ++ natRepr i).data = "Quota exceeded.".data := congrArg String.data h
  rw [str_data_append] at hd
  rw [show "Missing chunk ".data = 'M' :: "issing chunk ".data from rfl,
      show "Quota exceeded.".data = 'Q' :: "uota exceeded.".data from rfl] at hd
  simp at hd

theorem missing_ne_invalid (i : Nat) : ("Missing chunk " ++ natRepr i) ≠ "Invalid path" := by
  intro h
  have hd : ("Missing chunk " ++ natRepr i).data = "Invalid path".data := congrArg String.data h
  rw [str_data_append] at hd
  rw [show "Missing chunk ".data = 'M' :: "issing chunk ".data from rfl,
      show "Invalid path".data = 'I' :: "nvalid path".data from rfl] at hd
  simp at hd

theorem missing_inj {i j : Nat} (h : ("Missing chunk " ++ natRepr i) = ("Missing chunk " ++ natRepr j)) :
    i = j := by
  have hd := congrArg String.data h
  rw [str_data_append, str_data_append] at hd
  have := List.append_cancel_left hd
  exact natRepr_injective (str_ext this)

/-! Fixtures used by the concrete witness instantiations. -/

/-- Concrete oracle bundle: the digest of a byte list is its length
rendered after adding 1000 (injective on the inputs used), NFC is the
identity on the ASCII names used, and metadata serialisation size is 0. -/
def envW : Env := ⟨fun bs => natRepr (bs.length + 1000), fun s => s, "uuid-w", fun _ => 0⟩

/-- Concrete user: id 1, quota 10 bytes, 0 used. -/
def userW : UserRec := ⟨1, 10, 0⟩

/-- Empty user area. -/
def fsEmpty : UserFS := ⟨[], [], [], 0, []⟩

/-! Claim C8. -/

/-- C8: `verify_file_integrity` returns true whenever no stored digest
exists for the path (missing metadata entry, entry without a hash, or a
Python-falsy empty hash); when a digest is stored and the file is on
disk it returns the comparison of the recomputed digest with the stored
one; when a digest is stored but the file is gone it returns false. -/
theorem C8_verify_integrity (env : Env) (fs : UserFS) (fn : String) :
    (stored_digest fs fn = none → verify_file_integrity env fs fn = true) ∧
    (∀ h content, stored_digest fs fn = some h → alget fs.files fn = some content →
      verify_file_integrity env fs fn = (env.hash content == h)) ∧
    (∀ h, stored_digest fs fn = some h → alget fs.files fn = none →
      verify_file_integrity env fs fn = false) := by
  unfold stored_digest verify_file_integrity calculate_file_hash_from_path
  cases hm : alget (load_metadata fs.metadata) fn with
  | none => simp
  | some mv =>
    cases mv with
    | legacy s =>
      by_cases hs : s = ""
      · subst hs; simp
      · simp only [hs, if_false]
        cases hf : alget fs.files fn with
        | none => simp
        | some content => simp
    | entry e =>
      cases he : e.hash with
      | none => simp [he]
      | some s =>
        by_cases hs : s = ""
        · subst hs; simp [he]
        · simp only [he, hs, if_false]
          cases hf : alget fs.files fn with
          | none => simp
          | some content => simp

/-- State for the C8 witness: one file with a digest whose recompute
matches, one entry without a digest. -/
def fsC8 : UserFS :=
  ⟨[("a.txt", [1, 2])], [],
   [("a.txt", .entry ⟨some "1002", none⟩), ("b.txt", .entry ⟨none, none⟩)], 0, []⟩

theorem C8_witness :
    verify_file_integrity envW fsC8 "b.txt" = true ∧
    verify_file_integrity envW fsC8 "a.txt" = (envW.hash [1, 2] == "1002") ∧
    verify_file_integrity envW fsC8 "missing.txt" = true :=
  ⟨(C8_verify_integrity envW fsC8 "b.txt").1 (by decide),
   (C8_verify_integrity envW fsC8 "a.txt").2.1 "1002" [1, 2] (by decide) (by decide),
   (C8_verify_integrity envW fsC8 "missing.txt").1 (by decide)⟩

/-! Claim C7. -/

/-- C7: after a successful folder delete, exactly the metadata entries
whose slash-separated key starts with the folder path followed by a
trailing slash are removed; every other entry is untouched. -/
theorem C7_folder_metadata (env : Env) (fs : UserFS) (uid : Nat) (folder : String)
    (hok : (delete_user_folder env fs uid folder).1.1 = true)
    (hnb : ∀ c ∈ folder.data, c ≠ '\\')
    (hns : folder.data.getLast? ≠ some '/') :
    ∀ k, alget (delete_user_folder env fs uid folder).2.metadata k =
      if strStartsWith k (folder ++ "/") then none
      else alget (load_metadata fs.metadata) k := by
  intro k
  by_cases h1 : strStartsWith (abspath (pjoin (get_user_upload_dir uid) folder))
      (abspath (get_user_upload_dir uid)) = true
  · by_cases h2 : existsRel fs folder = true
    · by_cases h3 : isDirEntry fs folder = true
      · simp only [delete_user_folder, h1, h2, h3, not_true, if_false, Bool.not_eq_true,
          ite_false, ite_true]
        rw [slashify_id hnb]
        rw [if_neg hns]
        exact alget_filter_bool (load_metadata fs.metadata)
          (fun x => strStartsWith x (folder ++ "/")) k
      · exfalso
        simp [delete_user_folder, h1, h2, h3] at hok
    · exfalso
      simp [delete_user_folder, h1, h2] at hok
  · exfalso
    simp [delete_user_folder, h1] at hok

/-- State for the C7 witness: files and metadata under `docs`, under
`docs/sub` and under the sibling `docs2`. -/
def fsC7 : UserFS :=
  ⟨[("docs/a.txt", [1]), ("docs/sub/b.txt", [2, 2]), ("docs2/c.txt", [3])],
   ["docs", "docs/sub", "docs2"],
   [("docs/a.txt", .entry ⟨some "h1", none⟩), ("docs/sub/b.txt", .entry ⟨some "h2", none⟩),
    ("docs2/c.txt", .entry ⟨some "h3", none⟩)], 0, []⟩

theorem C7_witness :
    alget (delete_user_folder envW fsC7 1 "docs").2.metadata "docs/a.txt" = none ∧
    alget (delete_user_folder envW fsC7 1 "docs").2.metadata "docs/sub/b.txt" = none ∧
    alget (delete_user_folder envW fsC7 1 "docs").2.metadata "docs2/c.txt" =
      some (.entry ⟨some "h3", none⟩) := by
  refine ⟨?_, ?_, ?_⟩
  · exact (C7_folder_metadata envW fsC7 1 "docs" (by decide) (by decide) (by decide)
      "docs/a.txt").trans (by decide)
  · exact (C7_folder_metadata envW fsC7 1 "docs" (by decide) (by decide) (by decide)
      "docs/sub/b.txt").trans (by decide)
  · exact (C7_folder_metadata envW fsC7 1 "docs" (by decide) (by decide) (by decide)
      "docs2/c.txt").trans (by decide)

/-! Claim C2. -/

theorem mkdirs_tempChunks (fs : UserFS) (sub : String) :
    (mkdirs fs sub).tempChunks = fs.tempChunks := by
  unfold mkdirs
  by_cases h1 : sub = "" <;> simp only [h1, if_true, if_false, ite_true, ite_false]
  by_cases h2 : existsRel fs sub = true <;> simp [h2]

theorem mkdirs_files (fs : UserFS) (sub : String) :
    (mkdirs fs sub).files = fs.files := by
  unfold mkdirs
  by_cases h1 : sub = "" <;> simp only [h1, if_true, if_false, ite_true, ite_false]
  by_cases h2 : existsRel fs sub = true <;> simp [h2]

theorem mkdirs_metadata (fs : UserFS) (sub : String) :
    (mkdirs fs sub).metadata = fs.metadata := by
  unfold mkdirs
  by_cases h1 : sub = "" <;> simp only [h1, if_true, if_false, ite_true, ite_false]
  by_cases h2 : existsRel fs sub = true <;> simp [h2]

theorem alhas_get_chunk_dir (fs : UserFS) (u : String) :
    alhas (get_chunk_dir fs u).tempChunks u = true := by
  unfold get_chunk_dir
  by_cases h : alhas fs.tempChunks u = true
  · simp [h]
  · simp only [h, if_false, Bool.not_eq_true, ite_false, ite_true]
    simp [alhas]

/-- State refuting C2 as stated: upload `up1` has only chunk 0 on disk. -/
def fsC2 : UserFS := ⟨[], [], [], 0, [("up1", [(0, [7])])]⟩

/-- C2 counterexample: a merge of 2 chunks with chunk 1 absent fails
with `Missing chunk 1` and the chunk directory is still present
afterwards, so a missing-chunk failure does not remove it. -/
theorem C2_counterexample :
    (merge_chunks envW userW "up1" "a.txt" 2 "" fsC2).err = some "Missing chunk 1" ∧
    alhas (merge_chunks envW userW "up1" "a.txt" 2 "" fsC2).fs.tempChunks "up1" = true := by
  constructor <;> decide

/-- C2 amended: the chunk directory is removed on a successful merge
and on a quota rejection; a missing-chunk failure reports the first
absent index and leaves the chunk directory in place (as does an
invalid-path failure). -/
theorem C2_terminal_cleanup (env : Env) (user : UserRec) (upload_id origName : String)
    (total : Nat) (subpath : String) (fs : UserFS) :
    (((merge_chunks env user upload_id origName total subpath fs).err = none ∨
      (merge_chunks env user upload_id origName total subpath fs).err = some "Quota exceeded.") →
      alhas (merge_chunks env user upload_id origName total subpath fs).fs.tempChunks upload_id = false) ∧
    (∀ i, (merge_chunks env user upload_id origName total subpath fs).err =
        some ("Missing chunk " ++ natRepr i) →
      alhas (merge_chunks env user upload_id origName total subpath fs).fs.tempChunks upload_id = true ∧
      firstMissing ((alget (get_chunk_dir fs upload_id).tempChunks upload_id).getD []) total = some i) := by
  cases hfm : firstMissing ((alget (get_chunk_dir fs upload_id).tempChunks upload_id).getD []) total with
  | some i0 =>
    have hm : merge_chunks env user upload_id origName total subpath fs =
        ⟨none, some ("Missing chunk " ++ natRepr i0), get_chunk_dir fs upload_id⟩ := by
      simp only [merge_chunks]
      rw [hfm]
    rw [hm]
    constructor
    · rintro (he | he) <;> simp at he
      exact absurd he (missing_ne_quota i0)
    · intro i he
      simp only [Option.some.injEq] at he
      have hii : i0 = i := missing_inj he
      subst hii
      exact ⟨alhas_get_chunk_dir fs upload_id, rfl⟩
  | none =>
    by_cases hq : has_space user (((List.range total).map (fun i =>
        ((alget ((alget (get_chunk_dir fs upload_id).tempChunks upload_id).getD []) i).getD []).length)).sum) = true
    · by_cases hsec : strStartsWith
          (abspath (pjoin (get_user_upload_dir user.id) subpath))
          (abspath (get_user_upload_dir user.id)) = true
      · have hm : (merge_chunks env user upload_id origName total subpath fs).err = none ∧
            (merge_chunks env user upload_id origName total subpath fs).fs.tempChunks =
              aldel (get_chunk_dir fs upload_id).tempChunks upload_id := by
          simp only [merge_chunks]
          rw [hfm]
          simp only [hq, hsec, not_true, if_false, Bool.not_eq_true, ite_false, ite_true]
          exact ⟨trivial, by rw [mkdirs_tempChunks]⟩
        constructor
        · intro _
          rw [hm.2]
          exact alhas_aldel _ _
        · intro i he
          rw [hm.1] at he
          exact absurd he (by simp)
      · have hm : merge_chunks env user upload_id origName total subpath fs =
            ⟨none, some "Invalid path", get_chunk_dir fs upload_id⟩ := by
          simp only [merge_chunks]
          rw [hfm]
          simp only [hq, hsec, not_false_eq_true, if_true, Bool.not_eq_true, ite_false, ite_true,
            not_true]
        rw [hm]
        constructor
        · rintro (he | he) <;> simp at he
        · intro i he
          simp only [Option.some.injEq] at he
          exact absurd he.symm (missing_ne_invalid i)
    · have hm : merge_chunks env user upload_id origName total subpath fs =
          ⟨none, some "Quota exceeded.",
            { get_chunk_dir fs upload_id with
              tempChunks := aldel (get_chunk_dir fs upload_id).tempChunks upload_id }⟩ := by
        simp only [merge_chunks]
        rw [hfm]
        simp only [hq, Bool.not_eq_true, ite_false, ite_true, not_false_eq_true, if_true]
      rw [hm]
      constructor
      · intro _
        exact alhas_aldel _ _
      · intro i he
        simp only [Option.some.injEq] at he
        exact absurd he.symm (missing_ne_quota i)

/-- State for the C2 amended witness: upload `up2` complete with two
chunks. -/
def fsC2ok : UserFS := ⟨[], [], [], 0, [("up2", [(0, [1]), (1, [2])])]⟩

theorem C2_witness :
    alhas (merge_chunks envW userW "up2" "a.txt" 2 "" fsC2ok).fs.tempChunks "up2" = false ∧
    alhas (merge_chunks envW userW "up1" "a.txt" 2 "" fsC2).fs.tempChunks "up1" = true :=
  ⟨(C2_terminal_cleanup envW userW "up2" "a.txt" 2 "" fsC2ok).1 (Or.inl (by decide)),
   ((C2_terminal_cleanup envW userW "up1" "a.txt" 2 "" fsC2).2 1 (by decide)).1⟩

/-! Claim C1. -/

theorem save_file_quota_fail (env : Env) (user : UserRec) (content : List Nat)
    (origName subpath : String) (fs : UserFS)
    (h : user.quota_bytes < user.used_bytes + get_temp_usage fs + content.length) :
    save_file env user content origName subpath fs = ⟨none, some "Quota exceeded.", fs⟩ := by
  have hq : has_space user (content.length + get_temp_usage fs) = false := by
    simp only [has_space, decide_eq_false_iff_not]
    omega
  simp [save_file, hq]

theorem save_file_success (env : Env) (user : UserRec) (content : List Nat)
    (origName subpath : String) (fs : UserFS)
    (h : user.used_bytes + get_temp_usage fs + content.length ≤ user.quota_bytes)
    (hsec : strStartsWith (abspath (pjoin (get_user_upload_dir user.id) subpath))
        (abspath (get_user_upload_dir user.id)) = true) :
    (save_file env user content origName subpath fs).err = none := by
  have hq : has_space user (content.length + get_temp_usage fs) = true := by
    simp only [has_space, decide_eq_true_eq]
    omega
  simp [save_file, hq, hsec]

/-- C1: with the resolved target directory inside the user's root,
`save_file` succeeds iff `used_bytes + current_temp_usage + size` fits
the quota; when the check fails it returns exactly the error
"Quota exceeded." and leaves the state untouched: no file and no
metadata entry is written. -/
theorem C1_save_quota (env : Env) (user : UserRec) (content : List Nat)
    (origName subpath : String) (fs : UserFS)
    (hsec : strStartsWith (abspath (pjoin (get_user_upload_dir user.id) subpath))
        (abspath (get_user_upload_dir user.id)) = true) :
    ((save_file env user content origName subpath fs).err = none ↔
      user.used_bytes + get_temp_usage fs + content.length ≤ user.quota_bytes) ∧
    (user.quota_bytes < user.used_bytes + get_temp_usage fs + content.length →
      save_file env user content origName subpath fs = ⟨none, some "Quota exceeded.", fs⟩) := by
  constructor
  · constructor
    · intro he
      by_contra hq
      push_neg at hq
      rw [save_file_quota_fail env user content origName subpath fs hq] at he
      simp at he
    · intro hle
      exact save_file_success env user content origName subpath fs hle hsec
  · intro hgt
    exact save_file_quota_fail env user content origName subpath fs hgt

theorem C1_witness :
    ((save_file envW userW [0, 1, 2] "t.txt" "" fsEmpty).err = none ↔
      userW.used_bytes + get_temp_usage fsEmpty + ([0, 1, 2] : List Nat).length ≤ userW.quota_bytes) ∧
    (userW.quota_bytes < userW.used_bytes + get_temp_usage fsEmpty + ([0, 1, 2] : List Nat).length →
      save_file envW userW [0, 1, 2] "t.txt" "" fsEmpty = ⟨none, some "Quota exceeded.", fsEmpty⟩) :=
  C1_save_quota envW userW [0, 1, 2] "t.txt" "" fsEmpty (by decide)

/-! Claim C3. -/

theorem mem_of_getLast?_eq {α : Type} {l : List α} {a : α} (h : l.getLast? = some a) : a ∈ l := by
  obtain ⟨hne, he⟩ := List.mem_getLast?_eq_getLast (by rw [Option.mem_def]; exact h)
  rw [he]
  exact List.getLast_mem hne

theorem str_data_ne_nil {s : String} (h : s ≠ "") : s.data ≠ [] := by
  intro hd
  exact h (str_ext (by simpa using hd))

theorem safe_id_facts {s : String} (h : is_safe_upload_id s = true) :
    s ≠ "" ∧ s ≠ "." ∧ s ≠ ".." ∧ ∀ c ∈ s.data, c ≠ '/' := by
  have hparts : (s != "") = true ∧ s.data.all safeTokenChar = true := by
    simpa [is_safe_upload_id, Bool.and_eq_true] using h
  have hne : s ≠ "" := by simpa using hparts.1
  have hall : ∀ c ∈ s.data, safeTokenChar c = true := List.all_eq_true.mp hparts.2
  refine ⟨hne, ?_, ?_, ?_⟩
  · intro he
    have : safeTokenChar '.' = true := hall '.' (by rw [he]; decide)
    exact absurd this (by decide)
  · intro he
    have : safeTokenChar '.' = true := hall '.' (by rw [he]; decide)
    exact absurd this (by decide)
  · intro c hc he
    subst he
    exact absurd (hall '/' hc) (by decide)

theorem abspath_extend (p s : String) (hs : ∀ c ∈ s.data, c ≠ '/')
    (h1 : s ≠ "") (h2 : s ≠ ".") (h3 : s ≠ "..")
    (hne : normSegs (pathSegs p) ≠ []) :
    abspath (p ++ "/" ++ s) = abspath p ++ "/" ++ s ∧
    normSegs (pathSegs (p ++ "/" ++ s)) = normSegs (pathSegs p) ++ [s] := by
  constructor
  · exact abspath_append_seg p s hs h1 h2 h3 hne
  · rw [pathSegs_append_seg, pathSegs_no_slash s hs, normSegs_append_normal _ s h1 h2 h3]

theorem natRepr_no_slash {n : Nat} : ∀ c ∈ (natRepr n).data, c ≠ '/' :=
  fun c hc => (natRepr_no_special c hc).1

theorem get_user_upload_dir_eq (uid : Nat) :
    get_user_upload_dir uid = "/srv/private_storage/uploads" ++ "/" ++ natRepr uid := by
  unfold get_user_upload_dir UPLOAD_FOLDER
  exact pjoin_normal _ _ natRepr_no_slash (by decide) (by decide)

theorem user_temp_dir_eq (uid : Nat) :
    user_temp_dir uid = "/srv/private_storage/uploads/temp" ++ "/" ++ natRepr uid := by
  unfold user_temp_dir
  rw [show pjoin UPLOAD_FOLDER "temp" = "/srv/private_storage/uploads/temp" by decide]
  exact pjoin_normal _ _ natRepr_no_slash (by decide) (by decide)

theorem append_seg_ne_empty {p s : String} (h : s ≠ "") : p ++ "/" ++ s ≠ "" := by
  intro he
  have hd := congrArg String.data he
  rw [str_data_append] at hd
  rcases List.append_eq_nil.mp hd with ⟨-, h2⟩
  exact str_data_ne_nil h h2

theorem append_seg_getLast {p s : String} (h : s ≠ "") :
    (p ++ "/" ++ s).data.getLast? = s.data.getLast? := by
  rw [str_data_append]
  exact List.getLast?_append_of_ne_nil _ (str_data_ne_nil h)

theorem getLast_no_slash {s : String} (hs : ∀ c ∈ s.data, c ≠ '/') :
    s.data.getLast? ≠ some '/' := by
  intro h
  exact hs '/' (mem_of_getLast?_eq h) rfl

theorem chunk_path_inside (uid : Nat) (idv : String) (i : Nat)
    (hsafe : is_safe_upload_id idv = true) :
    abspath (chunk_file_path uid idv i) =
      abspath (user_temp_dir uid) ++ "/" ++ idv ++ "/" ++ natRepr i := by
  obtain ⟨hne, hdot, hdots, hslash⟩ := safe_id_facts hsafe
  have htd := user_temp_dir_eq uid
  have h1 : get_chunk_dir_path uid idv = user_temp_dir uid ++ "/" ++ idv := by
    unfold get_chunk_dir_path
    apply pjoin_normal _ _ hslash
    · rw [htd]; exact append_seg_ne_empty natRepr_ne_names.1
    · rw [htd, append_seg_getLast natRepr_ne_names.1]
      exact getLast_no_slash natRepr_no_slash
  have h2 : chunk_file_path uid idv i = user_temp_dir uid ++ "/" ++ idv ++ "/" ++ natRepr i := by
    unfold chunk_file_path
    rw [h1]
    apply pjoin_normal _ _ natRepr_no_slash
    · exact append_seg_ne_empty hne
    · rw [append_seg_getLast hne]
      exact getLast_no_slash hslash
  rw [h2, htd]
  have hn0 : normSegs (pathSegs "/srv/private_storage/uploads/temp") ≠ [] := by decide
  have step1 := abspath_extend "/srv/private_storage/uploads/temp" (natRepr uid)
    natRepr_no_slash natRepr_ne_names.1 natRepr_ne_names.2.1 natRepr_ne_names.2.2 hn0
  have hn1 : normSegs (pathSegs ("/srv/private_storage/uploads/temp" ++ "/" ++ natRepr uid)) ≠ [] := by
    rw [step1.2]
    simp
  have step2 := abspath_extend ("/srv/private_storage/uploads/temp" ++ "/" ++ natRepr uid) idv
    hslash hne hdot hdots hn1
  have hn2 : normSegs (pathSegs ("/srv/private_storage/uploads/temp" ++ "/" ++ natRepr uid ++ "/" ++ idv)) ≠ [] := by
    rw [step2.2]
    simp
  have step3 := abspath_extend ("/srv/private_storage/uploads/temp" ++ "/" ++ natRepr uid ++ "/" ++ idv)
    (natRepr i) natRepr_no_slash natRepr_ne_names.1 natRepr_ne_names.2.1 natRepr_ne_names.2.2 hn2
  rw [step3.1, step2.1]

/-- C3: an upload id that fails the safe-token pattern makes the
`upload_chunk` route reject with HTTP 400 before `save_chunk` runs, the
state untouched (no chunk directory created, no chunk written); any id
containing a path separator, a backslash or a bare traversal component
fails the pattern; and for every id that passes the pattern, the chunk
file's resolved absolute path sits directly inside the user's temp
directory. -/
theorem C3_upload_id_guard :
    (∀ (user : UserRec) (upload_id : String) (idx : Nat) (chunk : List Nat) (fs : UserFS),
      is_safe_upload_id upload_id = false →
      upload_chunk_route user upload_id idx chunk fs = ((400, some "Invalid upload_id"), fs)) ∧
    (∀ s : String, ('/' ∈ s.data ∨ '\\' ∈ s.data ∨ s = ".." ∨ s = ".") →
      is_safe_upload_id s = false) ∧
    (∀ (uid : Nat) (upload_id : String) (i : Nat), is_safe_upload_id upload_id = true →
      abspath (chunk_file_path uid upload_id i) =
        abspath (user_temp_dir uid) ++ "/" ++ upload_id ++ "/" ++ natRepr i) := by
  refine ⟨?_, ?_, ?_⟩
  · intro user upload_id idx chunk fs h
    simp [upload_chunk_route, h]
  · intro s hbad
    by_contra hsafe
    have hsafe' : is_safe_upload_id s = true := by simpa using hsafe
    have hparts : (s != "") = true ∧ s.data.all safeTokenChar = true := by
      simpa [is_safe_upload_id, Bool.and_eq_true] using hsafe'
    have hall := List.all_eq_true.mp hparts.2
    obtain ⟨-, hdot, hdots, -⟩ := safe_id_facts hsafe'
    rcases hbad with hb | hb | hb | hb
    · exact absurd (hall '/' hb) (by decide)
    · exact absurd (hall '\\' hb) (by decide)
    · exact hdots hb
    · exact hdot hb
  · intro uid upload_id i h
    exact chunk_path_inside uid upload_id i h

theorem C3_witness :
    upload_chunk_route userW "../evil" 0 [1] fsEmpty = ((400, some "Invalid upload_id"), fsEmpty) ∧
    is_safe_upload_id "a/b" = false ∧
    abspath (chunk_file_path 1 "abc" 0) =
      abspath (user_temp_dir 1) ++ "/" ++ "abc" ++ "/" ++ natRepr 0 :=
  ⟨C3_upload_id_guard.1 userW "../evil" 0 [1] fsEmpty (by decide),
   C3_upload_id_guard.2.1 "a/b" (Or.inl (by decide)),
   C3_upload_id_guard.2.2 1 "abc" 0 (by decide)⟩

/-! Success-path equations shared by C5, C6 and C10. -/

/-- Name `save_file`/`merge_chunks` start from: the sanitised client
name, or a fresh uuid when it sanitises to the empty string. -/
def chosenName (env : Env) (origName : String) : String :=
  if safe_filename env.nfc origName = "" then env.uuid else safe_filename env.nfc origName

theorem renameLoop_of_free (ex : String → Bool) (base ext : String) (fuel counter : Nat)
    (current : String) (h : ex current = false) :
    renameLoop ex base ext fuel counter current = current := by
  cases fuel <;> simp [renameLoop, h]

theorem hsec_root (uid : Nat) :
    strStartsWith (abspath (pjoin (get_user_upload_dir uid) ""))
      (abspath (get_user_upload_dir uid)) = true := by
  have ha : get_user_upload_dir uid ≠ "" := by
    rw [get_user_upload_dir_eq]
    exact append_seg_ne_empty natRepr_ne_names.1
  have hl : (get_user_upload_dir uid).data.getLast? ≠ some '/' := by
    rw [get_user_upload_dir_eq, append_seg_getLast natRepr_ne_names.1]
    exact getLast_no_slash natRepr_no_slash
  have h1 : pjoin (get_user_upload_dir uid) "" = get_user_upload_dir uid ++ "/" := by
    unfold pjoin
    rw [if_neg (by decide : ¬ (strStartsWith "" "/" = true)), if_neg ha, if_neg hl]
    exact str_append_empty _
  rw [h1, abspath_trailing_slash]
  exact strStartsWith_self _

theorem save_file_success_eq (env : Env) (user : UserRec) (content : List Nat)
    (origName subpath : String) (fs : UserFS)
    (hq : has_space user (content.length + get_temp_usage fs) = true)
    (hsec : strStartsWith (abspath (pjoin (get_user_upload_dir user.id) subpath))
        (abspath (get_user_upload_dir user.id)) = true) :
    save_file env user content origName subpath fs =
      (let fs1 := mkdirs fs subpath
       let nm := renameLoop (fun n => existsRel fs1 (relJoin subpath n))
         (splitext (chosenName env origName)).1 (splitext (chosenName env origName)).2
         (fs1.files.length + fs1.dirs.length + 2) 1 (chosenName env origName)
       let md2 := alset (load_metadata fs1.metadata)
         (if subpath ≠ "" then slashify (relJoin subpath nm) else nm)
         (.entry ⟨some (env.hash content), none⟩)
       ⟨some nm, none,
        { fs1 with files := alset fs1.files (relJoin subpath nm) content,
                   metadata := md2, metaSize := env.encSize md2 }⟩) := by
  simp only [save_file, hq, hsec, not_true, Bool.not_eq_true, ite_false, ite_true,
    chosenName, calculate_file_hash]

theorem merge_chunks_success_eq (env : Env) (user : UserRec) (upload_id origName : String)
    (total : Nat) (subpath : String) (fs : UserFS)
    (hm : firstMissing ((alget (get_chunk_dir fs upload_id).tempChunks upload_id).getD []) total = none)
    (hq : has_space user (((List.range total).map (fun i =>
      ((alget ((alget (get_chunk_dir fs upload_id).tempChunks upload_id).getD []) i).getD []).length)).sum) = true)
    (hsec : strStartsWith (abspath (pjoin (get_user_upload_dir user.id) subpath))
        (abspath (get_user_upload_dir user.id)) = true) :
    merge_chunks env user upload_id origName total subpath fs =
      (let chunks := (alget (get_chunk_dir fs upload_id).tempChunks upload_id).getD []
       let fs1 := mkdirs (get_chunk_dir fs upload_id) subpath
       let nm := renameLoop (fun n => existsRel fs1 (relJoin subpath n))
         (splitext (chosenName env origName)).1 (splitext (chosenName env origName)).2
         (fs1.files.length + fs1.dirs.length + 2) 1 (chosenName env origName)
       let content := ((List.range total).map (fun i => (alget chunks i).getD [])).flatten
       let md2 := alset (load_metadata fs1.metadata)
         (if subpath ≠ "" then slashify (relJoin subpath nm) else nm)
         (.entry ⟨some (env.hash content), none⟩)
       ⟨some nm, none,
        { fs1 with files := alset fs1.files (relJoin subpath nm) content,
                   metadata := md2, metaSize := env.encSize md2,
                   tempChunks := aldel fs1.tempChunks upload_id }⟩) := by
  simp only [merge_chunks]
  rw [hm]
  simp only [hq, hsec, not_true, Bool.not_eq_true, ite_false, ite_true,
    chosenName, calculate_file_hash_from_path]

/-! Claim C10. -/

theorem get_chunk_dir_files (fs : UserFS) (u : String) :
    (get_chunk_dir fs u).files = fs.files := by
  unfold get_chunk_dir; split <;> rfl

theorem get_chunk_dir_dirs (fs : UserFS) (u : String) :
    (get_chunk_dir fs u).dirs = fs.dirs := by
  unfold get_chunk_dir; split <;> rfl

theorem get_chunk_dir_metadata (fs : UserFS) (u : String) :
    (get_chunk_dir fs u).metadata = fs.metadata := by
  unfold get_chunk_dir; split <;> rfl

theorem existsRel_congr {fs fs' : UserFS} (hf : fs'.files = fs.files)
    (hd : fs'.dirs = fs.dirs) (rel : String) : existsRel fs' rel = existsRel fs rel := by
  simp [existsRel, isDirEntry, hf, hd]

/-- C10: when the client-supplied filename sanitises to the empty
string, `save_file` and `merge_chunks` substitute the freshly generated
uuid as the stored filename and proceed: with quota headroom and an
unused uuid, the operation succeeds and the stored name is exactly the
uuid (in particular not the empty string). -/
theorem C10_uuid_fallback (env : Env) (user : UserRec) (fs : UserFS) :
    (∀ (content : List Nat) (origName : String),
      safe_filename env.nfc origName = "" →
      user.used_bytes + get_temp_usage fs + content.length ≤ user.quota_bytes →
      existsRel fs env.uuid = false →
      (save_file env user content origName "" fs).name = some env.uuid ∧
      (save_file env user content origName "" fs).err = none) ∧
    (∀ (upload_id origName : String) (total : Nat),
      safe_filename env.nfc origName = "" →
      firstMissing ((alget (get_chunk_dir fs upload_id).tempChunks upload_id).getD []) total = none →
      has_space user (((List.range total).map (fun i =>
        ((alget ((alget (get_chunk_dir fs upload_id).tempChunks upload_id).getD []) i).getD []).length)).sum) = true →
      existsRel fs env.uuid = false →
      (merge_chunks env user upload_id origName total "" fs).name = some env.uuid ∧
      (merge_chunks env user upload_id origName total "" fs).err = none) := by
  constructor
  · intro content origName hemp hle hfree
    have hq' : has_space user (content.length + get_temp_usage fs) = true := by
      simp only [has_space, decide_eq_true_eq]
      omega
    rw [save_file_success_eq env user content origName "" fs hq' (hsec_root user.id)]
    have hmk : mkdirs fs "" = fs := by simp [mkdirs]
    simp only [hmk, chosenName, hemp, if_true, ite_true, relJoin]
    rw [renameLoop_of_free _ _ _ _ _ _ (by simpa [relJoin] using hfree)]
    exact ⟨rfl, trivial⟩
  · intro upload_id origName total hemp hm hq hfree
    rw [merge_chunks_success_eq env user upload_id origName total "" fs hm hq (hsec_root user.id)]
    have hmk : mkdirs (get_chunk_dir fs upload_id) "" = get_chunk_dir fs upload_id := by
      simp [mkdirs]
    have hfree' : existsRel (get_chunk_dir fs upload_id) env.uuid = false := by
      rw [existsRel_congr (get_chunk_dir_files fs upload_id) (get_chunk_dir_dirs fs upload_id)]
      exact hfree
    simp only [hmk, chosenName, hemp, if_true, ite_true, relJoin]
    rw [renameLoop_of_free _ _ _ _ _ _ (by simpa [relJoin] using hfree')]
    exact ⟨rfl, trivial⟩

theorem C10_witness :
    ((save_file envW userW [1] "   " "" fsEmpty).name = some "uuid-w" ∧
     (save_file envW userW [1] "   " "" fsEmpty).err = none) ∧
    ((merge_chunks envW userW "up2" "   " 2 "" fsC2ok).name = some "uuid-w" ∧
     (merge_chunks envW userW "up2" "   " 2 "" fsC2ok).err = none) :=
  ⟨(C10_uuid_fallback envW userW fsEmpty).1 [1] "   " (by decide) (by decide) (by decide),
   (C10_uuid_fallback envW userW fsC2ok).2 "up2" "   " 2 (by decide) (by decide) (by decide) (by decide)⟩

/-! Claim C5: helper lemmas. -/

theorem alget_enumFrom {α : Type} : ∀ (l : List α) (k i : Nat),
    alget (List.enumFrom k l) (k + i) = l.get? i := by
  intro l
  induction l with
  | nil => intro k i; rfl
  | cons a rest ih =>
    intro k i
    cases i with
    | zero => simp [alget]
    | succ j =>
      rw [show List.enumFrom k (a :: rest) = (k, a) :: List.enumFrom (k + 1) rest from rfl]
      rw [show alget ((k, a) :: List.enumFrom (k + 1) rest) (k + (j + 1)) =
        (if k = k + (j + 1) then some a else alget (List.enumFrom (k + 1) rest) (k + (j + 1))) from rfl]
      rw [if_neg (by omega)]
      rw [show k + (j + 1) = (k + 1) + j by omega, ih]
      rfl

theorem alget_enum {α : Type} (l : List α) (i : Nat) : alget l.enum i = l.get? i := by
  have := alget_enumFrom l 0 i
  simpa using this

theorem alhas_of_alget {α β : Type} [DecidableEq α] {m : List (α × β)} {k : α} {v : β}
    (h : alget m k = some v) : alhas m k = true := by
  induction m with
  | nil => simp [alget] at h
  | cons p rest ih =>
    by_cases hk : p.1 = k
    · simp [alhas, hk]
    · rw [show alget (p :: rest) k = (if p.1 = k then some p.2 else alget rest k) by
        rcases p with ⟨a, b⟩; rfl, if_neg hk] at h
      have hr := ih h
      simp only [alhas, List.any_cons] at hr ⊢
      rw [hr]
      simp

theorem alget_append_new {α β : Type} [DecidableEq α] (m : List (α × β)) (k : α) (v : β)
    (h : alhas m k = false) : alget (m ++ [(k, v)]) k = some v := by
  induction m with
  | nil => simp [alget]
  | cons p rest ih =>
    have hk : p.1 ≠ k := by
      intro he
      simp [alhas, List.any_cons, he] at h
    have hrest : alhas rest k = false := by
      simp [alhas, List.any_cons] at h
      simpa [alhas] using h.2
    rw [show ((p :: rest) ++ [(k, v)]) = p :: (rest ++ [(k, v)]) from rfl]
    rw [show alget (p :: (rest ++ [(k, v)])) k =
      (if p.1 = k then some p.2 else alget (rest ++ [(k, v)]) k) by rcases p with ⟨a, b⟩; rfl]
    rw [if_neg hk, ih hrest]

theorem alget_map_update {α β : Type} [DecidableEq α] (m : List (α × β)) (k : α) (v : β)
    (h : alhas m k = true) :
    alget (m.map (fun p => if p.1 = k then (k, v) else p)) k = some v := by
  induction m with
  | nil => simp [alhas] at h
  | cons p rest ih =>
    by_cases hk : p.1 = k
    · simp only [List.map_cons, hk, if_true, ite_true]
      simp [alget]
    · simp only [List.map_cons, hk, if_false, ite_false]
      rw [show alget (p :: (rest.map (fun p => if p.1 = k then (k, v) else p))) k =
        (if p.1 = k then some p.2 else alget (rest.map (fun p => if p.1 = k then (k, v) else p)) k) by
          rcases p with ⟨a, b⟩; rfl]
      rw [if_neg hk]
      apply ih
      simp [alhas, List.any_cons, hk] at h
      simpa [alhas] using h

theorem alget_alset_self {α β : Type} [DecidableEq α] (m : List (α × β)) (k : α) (v : β) :
    alget (alset m k v) k = some v := by
  unfold alset
  by_cases h : alhas m k = true
  · rw [if_pos h]
    exact alget_map_update m k v h
  · rw [if_neg h]
    exact alget_append_new m k v (by simpa using h)

theorem range_map_get {α β : Type} (l : List α) (d : α) (f : α → β) :
    (List.range l.length).map (fun i => f ((l.get? i).getD d)) = l.map f := by
  induction l with
  | nil => rfl
  | cons a rest ih =>
    rw [List.length_cons, List.range_succ_eq_map, List.map_cons, List.map_map]
    rw [show ((fun i => f ((List.get? (a :: rest) i).getD d)) ∘ (· + 1)) =
      (fun i => f ((rest.get? i).getD d)) from rfl]
    rw [ih]
    rfl

theorem firstMissing_enum (l : List (List Nat)) :
    firstMissing (List.enum l) l.length = none := by
  unfold firstMissing
  rw [List.find?_eq_none]
  intro i hi
  have hlt : i < l.length := List.mem_range.mp hi
  obtain ⟨a, ha⟩ : ∃ a, l.get? i = some a := ⟨l.get ⟨i, hlt⟩, List.get?_eq_get hlt⟩
  have hsome : alget l.enum i = some a := by rw [alget_enum]; exact ha
  have halhas : alhas l.enum i = true := alhas_of_alget hsome
  simp [halhas]

theorem enum_content_eq {α : Type} (l : List (List α)) :
    ((List.range l.length).map (fun i => (alget l.enum i).getD [])).flatten = l.flatten := by
  have h1 : (List.range l.length).map (fun i => (alget l.enum i).getD []) = l.map id := by
    have := range_map_get l ([] : List α) id
    rw [← this]
    apply List.map_congr_left
    intro i _
    rw [alget_enum]
    rfl
  rw [h1, List.map_id]

theorem enum_size_eq {α : Type} (l : List (List α)) :
    ((List.range l.length).map (fun i => ((alget l.enum i).getD []).length)).sum =
      l.flatten.length := by
  have h1 : (List.range l.length).map (fun i => ((alget l.enum i).getD []).length) =
      l.map List.length := by
    have := range_map_get l ([] : List α) List.length
    rw [← this]
    apply List.map_congr_left
    intro i _
    rw [alget_enum]
  rw [h1, List.length_flatten]

theorem mkdirs_fd_congr {fs fs' : UserFS} (hf : fs'.files = fs.files)
    (hd : fs'.dirs = fs.dirs) (sub : String) :
    (mkdirs fs' sub).files = (mkdirs fs sub).files ∧
    (mkdirs fs' sub).dirs = (mkdirs fs sub).dirs := by
  unfold mkdirs
  by_cases h1 : sub = ""
  · simp only [h1, if_true, ite_true]
    exact ⟨hf, hd⟩
  · simp only [h1, if_false, ite_false]
    rw [existsRel_congr hf hd]
    by_cases h2 : existsRel fs sub = true
    · simp only [h2, if_true, ite_true]
      exact ⟨hf, hd⟩
    · simp only [h2, if_false, ite_false]
      refine ⟨hf, ?_⟩
      show fs'.dirs ++ _ = fs.dirs ++ _
      rw [hd]
      congr 1
      apply List.filter_congr
      intro d _
      rw [existsRel_congr hf hd]

/-- C5: merging the N chunks of a partition in index order produces a
stored file with the same name, the same bytes and the same recorded
digest as a single direct `save_file` of the concatenated content run
from the same committed state. -/
theorem C5_chunk_equivalence (env : Env) (user : UserRec) (upload_id origName subpath : String)
    (fs : UserFS) (chunks : List (List Nat))
    (hq : user.used_bytes + chunks.flatten.length ≤ user.quota_bytes)
    (hsec : strStartsWith (abspath (pjoin (get_user_upload_dir user.id) subpath))
        (abspath (get_user_upload_dir user.id)) = true) :
    ∃ nm,
      (save_file env user chunks.flatten origName subpath { fs with tempChunks := [] }).name = some nm ∧
      (merge_chunks env user upload_id origName chunks.length subpath
        { fs with tempChunks := [(upload_id, chunks.enum)] }).name = some nm ∧
      alget (save_file env user chunks.flatten origName subpath
          { fs with tempChunks := [] }).fs.files (relJoin subpath nm) = some chunks.flatten ∧
      alget (merge_chunks env user upload_id origName chunks.length subpath
          { fs with tempChunks := [(upload_id, chunks.enum)] }).fs.files
        (relJoin subpath nm) = some chunks.flatten ∧
      alget (save_file env user chunks.flatten origName subpath
          { fs with tempChunks := [] }).fs.metadata
        (if subpath ≠ "" then slashify (relJoin subpath nm) else nm) =
        some (.entry ⟨some (env.hash chunks.flatten), none⟩) ∧
      alget (merge_chunks env user upload_id origName chunks.length subpath
          { fs with tempChunks := [(upload_id, chunks.enum)] }).fs.metadata
        (if subpath ≠ "" then slashify (relJoin subpath nm) else nm) =
        some (.entry ⟨some (env.hash chunks.flatten), none⟩) := by
  have hgcd : get_chunk_dir { fs with tempChunks := [(upload_id, chunks.enum)] } upload_id =
      { fs with tempChunks := [(upload_id, chunks.enum)] } := by
    unfold get_chunk_dir
    rw [if_pos]
    simp [alhas]
  have hchunksget : (alget (get_chunk_dir { fs with tempChunks := [(upload_id, chunks.enum)] }
      upload_id).tempChunks upload_id).getD [] = chunks.enum := by
    rw [hgcd]
    simp [alget]
  have hm : firstMissing ((alget (get_chunk_dir { fs with tempChunks := [(upload_id, chunks.enum)] }
      upload_id).tempChunks upload_id).getD []) chunks.length = none := by
    rw [hchunksget]
    exact firstMissing_enum chunks
  have hqD : has_space user (chunks.flatten.length +
      get_temp_usage { fs with tempChunks := [] }) = true := by
    simp only [has_space, decide_eq_true_eq]
    have : get_temp_usage { fs with tempChunks := ([] : List (String × List (Nat × List Nat))) } = 0 := rfl
    omega
  have hqM : has_space user (((List.range chunks.length).map (fun i =>
      ((alget ((alget (get_chunk_dir { fs with tempChunks := [(upload_id, chunks.enum)] }
        upload_id).tempChunks upload_id).getD []) i).getD []).length)).sum) = true := by
    rw [hchunksget, enum_size_eq]
    simp only [has_space, decide_eq_true_eq]
    omega
  have hsg : (alget ([(upload_id, chunks.enum)] : List (String × List (Nat × List Nat)))
      upload_id).getD [] = chunks.enum := by
    simp [alget]
  rw [save_file_success_eq env user chunks.flatten origName subpath _ hqD hsec,
    merge_chunks_success_eq env user upload_id origName chunks.length subpath _ hm hqM hsec]
  simp only [hchunksget, hgcd, hsg, enum_content_eq]
  have hfd := mkdirs_fd_congr
    (show ({ fs with tempChunks := [(upload_id, chunks.enum)] } : UserFS).files =
      ({ fs with tempChunks := [] } : UserFS).files from rfl)
    (show ({ fs with tempChunks := [(upload_id, chunks.enum)] } : UserFS).dirs =
      ({ fs with tempChunks := [] } : UserFS).dirs from rfl) subpath
  have hex : (fun n => existsRel (mkdirs { fs with tempChunks := [(upload_id, chunks.enum)] } subpath)
      (relJoin subpath n)) =
      (fun n => existsRel (mkdirs { fs with tempChunks := [] } subpath) (relJoin subpath n)) := by
    funext n
    exact existsRel_congr hfd.1 hfd.2 _
  have hmdM : (mkdirs { fs with tempChunks := [(upload_id, chunks.enum)] } subpath).metadata =
      fs.metadata := mkdirs_metadata _ _
  have hmdD : (mkdirs { fs with tempChunks := [] } subpath).metadata = fs.metadata :=
    mkdirs_metadata _ _
  rw [hex, hfd.1, hfd.2, hmdM, hmdD]
  refine ⟨_, rfl, rfl, ?_, ?_, ?_, ?_⟩
  · apply alget_alset_self
  · apply alget_alset_self
  · apply alget_alset_self
  · apply alget_alset_self

theorem C5_witness :
    ∃ nm,
      (save_file envW userW ([[1], [2, 3]] : List (List Nat)).flatten "t.txt" ""
        { fsEmpty with tempChunks := [] }).name = some nm ∧
      (merge_chunks envW userW "up5" "t.txt" ([[1], [2, 3]] : List (List Nat)).length ""
        { fsEmpty with tempChunks := [("up5", ([[1], [2, 3]] : List (List Nat)).enum)] }).name =
        some nm ∧
      alget (save_file envW userW ([[1], [2, 3]] : List (List Nat)).flatten "t.txt" ""
          { fsEmpty with tempChunks := [] }).fs.files (relJoin "" nm) =
        some ([[1], [2, 3]] : List (List Nat)).flatten ∧
      alget (merge_chunks envW userW "up5" "t.txt" ([[1], [2, 3]] : List (List Nat)).length ""
          { fsEmpty with tempChunks := [("up5", ([[1], [2, 3]] : List (List Nat)).enum)] }).fs.files
        (relJoin "" nm) = some ([[1], [2, 3]] : List (List Nat)).flatten ∧
      alget (save_file envW userW ([[1], [2, 3]] : List (List Nat)).flatten "t.txt" ""
          { fsEmpty with tempChunks := [] }).fs.metadata
        (if ("" : String) ≠ "" then slashify (relJoin "" nm) else nm) =
        some (.entry ⟨some (envW.hash ([[1], [2, 3]] : List (List Nat)).flatten), none⟩) ∧
      alget (merge_chunks envW userW "up5" "t.txt" ([[1], [2, 3]] : List (List Nat)).length ""
          { fsEmpty with tempChunks := [("up5", ([[1], [2, 3]] : List (List Nat)).enum)] }).fs.metadata
        (if ("" : String) ≠ "" then slashify (relJoin "" nm) else nm) =
        some (.entry ⟨some (envW.hash ([[1], [2, 3]] : List (List Nat)).flatten), none⟩) :=
  C5_chunk_equivalence envW userW "up5" "t.txt" "" fsEmpty [[1], [2, 3]] (by decide) (by decide)

/-! Claim C6: auto-rename on collision. -/

theorem mem_of_mem_pyStrip {l : List Char} {c : Char} (hc : c ∈ pyStrip l) : c ∈ l := by
  unfold pyStrip at hc
  rw [List.mem_reverse] at hc
  have h1 := (List.dropWhile_sublist pyIsSpace).subset hc
  rw [List.mem_reverse] at h1
  exact (List.dropWhile_sublist pyIsSpace).subset h1

theorem mem_of_mem_stripDots {l : List Char} {c : Char} (hc : c ∈ stripLeadingDots l) :
    c = '_' ∨ c ∈ l := by
  unfold stripLeadingDots at hc
  by_cases hh : l.head? = some '.'
  · rw [if_pos hh] at hc
    rcases List.mem_cons.mp hc with h | h
    · exact Or.inl h
    · exact Or.inr ((List.dropWhile_sublist _).subset h)
  · rw [if_neg hh] at hc
    exact Or.inr hc

theorem safe_filename_no_slash (nfc : String → String) (s : String) :
    ∀ c ∈ (safe_filename nfc s).data, c ≠ '/' := by
  intro c hc
  unfold safe_filename at hc
  by_cases h : s = ""
  · rw [if_pos h] at hc
    simp at hc
  · rw [if_neg h] at hc
    have h1 : c ∈ stripLeadingDots ((nfc s).data.map (fun c => if forbiddenChar c then '_' else c)) :=
      mem_of_mem_pyStrip hc
    rcases mem_of_mem_stripDots h1 with h2 | h2
    · rw [h2]; decide
    · rw [List.mem_map] at h2
      obtain ⟨a, -, ha⟩ := h2
      by_cases hf : forbiddenChar a = true
      · rw [← ha, if_pos hf]; decide
      · rw [← ha, if_neg (by simpa using hf)]
        intro he
        rw [he] at hf
        exact hf rfl

theorem splitext_no_slash {name : String} (h : ∀ c ∈ name.data, c ≠ '/') :
    (∀ c ∈ (splitext name).1.data, c ≠ '/') ∧ (∀ c ∈ (splitext name).2.data, c ≠ '/') := by
  unfold splitext
  by_cases h1 : (name.data.reverse.takeWhile (fun c => c != '.')).length = name.data.length
  · rw [if_pos h1]
    exact ⟨h, by intro c hc; simp at hc⟩
  · rw [if_neg h1]
    by_cases h2 : (name.data.take (name.data.length -
        (name.data.reverse.takeWhile (fun c => c != '.')).length - 1)).all (fun c => c == '.') = true
    · rw [if_pos h2]
      exact ⟨h, by intro c hc; simp at hc⟩
    · rw [if_neg h2]
      constructor
      · intro c hc
        exact h c (List.take_subset _ _ hc)
      · intro c hc
        exact h c (List.drop_subset _ _ hc)

theorem candName_data (base ext : String) (k : Nat) :
    (candName base ext k).data = base.data ++ ['_'] ++ (natRepr k).data ++ ext.data := by
  unfold candName
  rw [str_data_append, str_data_append, str_data_append]

theorem candName_no_slash {base ext : String} (hb : ∀ c ∈ base.data, c ≠ '/')
    (he : ∀ c ∈ ext.data, c ≠ '/') (k : Nat) :
    ∀ c ∈ (candName base ext k).data, c ≠ '/' := by
  intro c hc
  rw [candName_data] at hc
  simp only [List.append_assoc, List.mem_append, List.mem_singleton] at hc
  rcases hc with h | h | h | h
  · exact hb c h
  · rw [h]; decide
  · exact (natRepr_no_special c h).1
  · exact he c h

theorem candName_injective {base ext : String} {j k : Nat}
    (h : candName base ext j = candName base ext k) : j = k := by
  have hd := congrArg String.data h
  rw [candName_data, candName_data] at hd
  have h1 := (List.append_inj' hd rfl).1
  have h2 := List.append_cancel_left h1
  exact natRepr_injective (str_ext h2)

theorem prefix_cancel_left {α : Type} {l a b : List α} (h : l ++ a <+: l ++ b) : a <+: b := by
  obtain ⟨t, ht⟩ := h
  rw [List.append_assoc] at ht
  exact ⟨t, List.append_cancel_left ht⟩

theorem prefix_of_prefix_concat {α : Type} {x y : List α} {z : α}
    (h : x <+: y ++ [z]) (hl : x.length ≤ y.length) : x <+: y := by
  have hx : x = (y ++ [z]).take x.length := List.prefix_iff_eq_take.mp h
  rw [List.take_append_of_le_length hl] at hx
  rw [hx]
  exact List.take_prefix _ _

theorem relJoin_data (subpath n : String) :
    (relJoin subpath n).data =
      (if subpath = "" then [] else subpath.data ++ ['/']) ++ n.data := by
  unfold relJoin
  by_cases h : subpath = ""
  · rw [if_pos h, if_pos h]
    rfl
  · rw [if_neg h, if_neg h, str_data_append, str_data_append]

theorem relJoin_inj {subpath x y : String} (h : relJoin subpath x = relJoin subpath y) : x = y := by
  have hd := congrArg String.data h
  rw [relJoin_data, relJoin_data] at hd
  exact str_ext (List.append_cancel_left hd)

theorem key_slash_prefix_absurd {subpath base ext : String} (j k : Nat)
    (hb : ∀ c ∈ base.data, c ≠ '/') (he : ∀ c ∈ ext.data, c ≠ '/')
    (h : (relJoin subpath (candName base ext k)).data ++ ['/'] <+:
      (relJoin subpath (candName base ext j)).data) : False := by
  rw [relJoin_data, relJoin_data, List.append_assoc] at h
  have h2 := prefix_cancel_left h
  have hmem : '/' ∈ (candName base ext j).data := h2.subset (by simp)
  exact candName_no_slash hb he j '/' hmem rfl

theorem blocked_inj {subpath base ext : String} {j k : Nat} {b : String}
    (hb : ∀ c ∈ base.data, c ≠ '/') (he : ∀ c ∈ ext.data, c ≠ '/')
    (h1 : b = relJoin subpath (candName base ext j) ∨
      (relJoin subpath (candName base ext j)).data ++ ['/'] <+: b.data)
    (h2 : b = relJoin subpath (candName base ext k) ∨
      (relJoin subpath (candName base ext k)).data ++ ['/'] <+: b.data) :
    j = k := by
  rcases h1 with h1 | h1 <;> rcases h2 with h2 | h2
  · rw [h1] at h2
    exact candName_injective (relJoin_inj h2)
  · exfalso
    rw [h1] at h2
    exact key_slash_prefix_absurd j k hb he h2
  · exfalso
    rw [h2] at h1
    exact key_slash_prefix_absurd k j hb he h1
  · rcases List.prefix_or_prefix_of_prefix h1 h2 with hp | hp
    · rcases lt_trichotomy (relJoin subpath (candName base ext j)).data.length
        (relJoin subpath (candName base ext k)).data.length with hlt | heq | hgt
      · exfalso
        have hsh := prefix_of_prefix_concat hp
          (by simp only [List.length_append, List.length_singleton]; omega)
        exact key_slash_prefix_absurd k j hb he hsh
      · have := hp.eq_of_length (by simp only [List.length_append]; omega)
        have hkeys := List.append_cancel_right this
        exact candName_injective (relJoin_inj (str_ext hkeys))
      · exfalso
        have := hp.length_le
        simp only [List.length_append, List.length_singleton] at this
        omega
    · rcases lt_trichotomy (relJoin subpath (candName base ext k)).data.length
        (relJoin subpath (candName base ext j)).data.length with hlt | heq | hgt
      · exfalso
        have hsh := prefix_of_prefix_concat hp
          (by simp only [List.length_append, List.length_singleton]; omega)
        exact key_slash_prefix_absurd j k hb he hsh
      · have := hp.eq_of_length (by simp only [List.length_append]; omega)
        have hkeys := List.append_cancel_right this
        exact (candName_injective (relJoin_inj (str_ext hkeys))).symm
      · exfalso
        have := hp.length_le
        simp only [List.length_append, List.length_singleton] at this
        omega

theorem existsRel_blocker {fs1 : UserFS} {key : String} (h : existsRel fs1 key = true) :
    ∃ b ∈ fs1.files.map (fun p => p.1) ++ fs1.dirs,
      b = key ∨ key.data ++ ['/'] <+: b.data := by
  unfold existsRel isDirEntry at h
  rw [Bool.or_eq_true, Bool.or_eq_true] at h
  rcases h with h | h | h
  · unfold alhas at h
    rw [List.any_eq_true] at h
    obtain ⟨p, hp, hpk⟩ := h
    refine ⟨p.1, List.mem_append.mpr (Or.inl (List.mem_map.mpr ⟨p, hp, rfl⟩)),
      Or.inl (by simpa using hpk)⟩
  · refine ⟨key, List.mem_append.mpr (Or.inr ?_), Or.inl rfl⟩
    exact List.elem_iff.mp h
  · rw [List.any_eq_true] at h
    obtain ⟨p, hp, hpk⟩ := h
    refine ⟨p.1, List.mem_append.mpr (Or.inl (List.mem_map.mpr ⟨p, hp, rfl⟩)), Or.inr ?_⟩
    unfold strStartsWith at hpk
    rw [List.isPrefixOf_iff_prefix] at hpk
    rw [show (key ++ "/").data = key.data ++ ['/'] from rfl] at hpk
    exact hpk

theorem exists_free_slot (fs1 : UserFS) (subpath base ext : String)
    (hb : ∀ c ∈ base.data, c ≠ '/') (he : ∀ c ∈ ext.data, c ≠ '/') :
    ∃ j, 1 ≤ j ∧ j ≤ fs1.files.length + fs1.dirs.length + 1 ∧
      existsRel fs1 (relJoin subpath (candName base ext j)) = false := by
  by_contra hall
  push_neg at hall
  have hall' : ∀ j, 1 ≤ j → j ≤ fs1.files.length + fs1.dirs.length + 1 →
      ∃ b ∈ fs1.files.map (fun p => p.1) ++ fs1.dirs,
        b = relJoin subpath (candName base ext j) ∨
        (relJoin subpath (candName base ext j)).data ++ ['/'] <+: b.data := by
    intro j h1 h2
    refine existsRel_blocker ?_
    have := hall j h1 h2
    simpa using this
  classical
  let B := fs1.files.length + fs1.dirs.length
  let f : ℕ → String := fun j =>
    if hj : 1 ≤ j ∧ j ≤ B + 1 then (hall' j hj.1 hj.2).choose else ""
  have hf : ∀ j ∈ Finset.Icc 1 (B + 1),
      f j ∈ (fs1.files.map (fun p => p.1) ++ fs1.dirs).toFinset := by
    intro j hj
    rw [Finset.mem_Icc] at hj
    show (if hj : 1 ≤ j ∧ j ≤ B + 1 then (hall' j hj.1 hj.2).choose else "") ∈ _
    rw [dif_pos hj]
    rw [List.mem_toFinset]
    exact (hall' j hj.1 hj.2).choose_spec.1
  have hinj : Set.InjOn f (Finset.Icc 1 (B + 1)) := by
    intro j1 hj1 j2 hj2 hfe
    rw [Finset.coe_Icc, Set.mem_Icc] at hj1 hj2
    have hv1 : f j1 = (hall' j1 hj1.1 hj1.2).choose := dif_pos hj1
    have hv2 : f j2 = (hall' j2 hj2.1 hj2.2).choose := dif_pos hj2
    have hs1 := (hall' j1 hj1.1 hj1.2).choose_spec.2
    have hs2 := (hall' j2 hj2.1 hj2.2).choose_spec.2
    rw [hv1, hv2] at hfe
    rw [hfe] at hs1
    exact blocked_inj hb he hs1 hs2
  have hcard := Finset.card_le_card_of_injOn f hf hinj
  rw [Nat.card_Icc] at hcard
  have hlen : (fs1.files.map (fun p => p.1) ++ fs1.dirs).toFinset.card ≤ B := by
    calc (fs1.files.map (fun p => p.1) ++ fs1.dirs).toFinset.card
        ≤ (fs1.files.map (fun p => p.1) ++ fs1.dirs).length := List.toFinset_card_le _
      _ = B := by rw [List.length_append, List.length_map]
  omega

theorem renameLoop_finds (ex : String → Bool) (base ext : String) :
    ∀ (fuel counter : Nat) (current : String),
    ex current = true →
    (∃ j, counter ≤ j ∧ j + 1 ≤ counter + fuel ∧ ex (candName base ext j) = false) →
    ∃ k, counter ≤ k ∧ ex (candName base ext k) = false ∧
      renameLoop ex base ext fuel counter current = candName base ext k ∧
      (∀ j, counter ≤ j → j < k → ex (candName base ext j) = true) := by
  intro fuel
  induction fuel with
  | zero =>
    intro counter current _ hex
    obtain ⟨j, hj1, hj2, -⟩ := hex
    omega
  | succ fuel ih =>
    intro counter current hcur hex
    rw [show renameLoop ex base ext (fuel + 1) counter current =
      (if ex current then renameLoop ex base ext fuel (counter + 1)
        (base ++ "_" ++ natRepr counter ++ ext) else current) from rfl, if_pos hcur]
    by_cases hc : ex (candName base ext counter) = true
    · obtain ⟨j, hj1, hj2, hj3⟩ := hex
      have hjc : j ≠ counter := by
        intro heq
        rw [heq, hc] at hj3
        exact absurd hj3 (by decide)
      obtain ⟨k, hk1, hk2, hk3, hk4⟩ := ih (counter + 1) (candName base ext counter) hc
        ⟨j, by omega, by omega, hj3⟩
      refine ⟨k, by omega, hk2, ?_, ?_⟩
      · rw [show (base ++ "_" ++ natRepr counter ++ ext) = candName base ext counter from rfl]
        exact hk3
      · intro j' hj'1 hj'2
        by_cases hjeq : j' = counter
        · rw [hjeq]
          exact hc
        · exact hk4 j' (by omega) hj'2
    · have hc' : ex (candName base ext counter) = false := by simpa using hc
      refine ⟨counter, le_rfl, hc', ?_, ?_⟩
      · rw [show (base ++ "_" ++ natRepr counter ++ ext) = candName base ext counter from rfl]
        exact renameLoop_of_free ex base ext fuel (counter + 1) _ hc'
      · intro j h1 h2
        omega

theorem alset_new {α β : Type} [DecidableEq α] (m : List (α × β)) (k : α) (v : β)
    (h : alhas m k = false) : alset m k v = m ++ [(k, v)] := by
  unfold alset
  rw [if_neg (by simp [h])]

theorem alget_append_other {α β : Type} [DecidableEq α] (m : List (α × β)) (k0 : α) (v : β)
    (key : α) (h : key ≠ k0) : alget (m ++ [(k0, v)]) key = alget m key := by
  induction m with
  | nil =>
    show alget [(k0, v)] key = none
    rw [show alget [(k0, v)] key = (if k0 = key then some v else alget ([] : List (α × β)) key)
      from rfl, if_neg (Ne.symm h)]
    rfl
  | cons p rest ih =>
    rw [List.cons_append]
    rw [show alget (p :: (rest ++ [(k0, v)])) key =
      (if p.1 = key then some p.2 else alget (rest ++ [(k0, v)]) key) by
        rcases p with ⟨a, b⟩; rfl]
    rw [show alget (p :: rest) key = (if p.1 = key then some p.2 else alget rest key) by
      rcases p with ⟨a, b⟩; rfl]
    by_cases hk : p.1 = key
    · rw [if_pos hk, if_pos hk]
    · rw [if_neg hk, if_neg hk, ih]

theorem existsRel_false_not_has {fs : UserFS} {n : String} (h : existsRel fs n = false) :
    alhas fs.files n = false := by
  unfold existsRel at h
  exact (Bool.or_eq_false_iff.mp h).1

/-- C6: when the sanitised target name already exists under the user's
root, `save_file` stores the upload under `base_k ext` for the first
free suffix `k ≥ 1`, still succeeds, and never overwrites: the chosen
name was free and every pre-existing file keeps its content. -/
theorem C6_auto_rename (env : Env) (user : UserRec) (content : List Nat)
    (origName : String) (fs : UserFS)
    (hq : user.used_bytes + get_temp_usage fs + content.length ≤ user.quota_bytes)
    (hne : safe_filename env.nfc origName ≠ "")
    (hcol : existsRel fs (safe_filename env.nfc origName) = true) :
    ∃ k, 1 ≤ k ∧
      (save_file env user content origName "" fs).err = none ∧
      (save_file env user content origName "" fs).name =
        some (candName (splitext (safe_filename env.nfc origName)).1
          (splitext (safe_filename env.nfc origName)).2 k) ∧
      existsRel fs (candName (splitext (safe_filename env.nfc origName)).1
        (splitext (safe_filename env.nfc origName)).2 k) = false ∧
      (∀ j, 1 ≤ j → j < k →
        existsRel fs (candName (splitext (safe_filename env.nfc origName)).1
          (splitext (safe_filename env.nfc origName)).2 j) = true) ∧
      (∀ key, key ≠ candName (splitext (safe_filename env.nfc origName)).1
          (splitext (safe_filename env.nfc origName)).2 k →
        alget (save_file env user content origName "" fs).fs.files key = alget fs.files key) := by
  have hq' : has_space user (content.length + get_temp_usage fs) = true := by
    simp only [has_space, decide_eq_true_eq]
    omega
  rw [save_file_success_eq env user content origName "" fs hq' (hsec_root user.id)]
  have hmk : mkdirs fs "" = fs := by simp [mkdirs]
  have hchosen : chosenName env origName = safe_filename env.nfc origName := by
    unfold chosenName
    rw [if_neg hne]
  simp only [hmk, hchosen]
  have hbs := (splitext_no_slash (safe_filename_no_slash env.nfc origName)).1
  have hes := (splitext_no_slash (safe_filename_no_slash env.nfc origName)).2
  obtain ⟨j0, hj1, hj2, hj3⟩ := exists_free_slot fs ""
    (splitext (safe_filename env.nfc origName)).1
    (splitext (safe_filename env.nfc origName)).2 hbs hes
  obtain ⟨k, hk1, hk2, hk3, hk4⟩ := renameLoop_finds
    (fun n => existsRel fs (relJoin "" n))
    (splitext (safe_filename env.nfc origName)).1
    (splitext (safe_filename env.nfc origName)).2
    (fs.files.length + fs.dirs.length + 2) 1 (safe_filename env.nfc origName)
    (by simpa [relJoin] using hcol)
    ⟨j0, hj1, by omega, by simpa [relJoin] using hj3⟩
  have hk2' : existsRel fs (candName (splitext (safe_filename env.nfc origName)).1
      (splitext (safe_filename env.nfc origName)).2 k) = false := by
    simpa [relJoin] using hk2
  refine ⟨k, hk1, trivial, ?_, hk2', ?_, ?_⟩
  · exact congrArg some hk3
  · intro j h1 h2
    have := hk4 j h1 h2
    simpa [relJoin] using this
  · intro key hkey
    show alget (alset fs.files (relJoin "" _) content) key = alget fs.files key
    rw [hk3]
    rw [show relJoin "" (candName (splitext (safe_filename env.nfc origName)).1
      (splitext (safe_filename env.nfc origName)).2 k) =
      candName (splitext (safe_filename env.nfc origName)).1
        (splitext (safe_filename env.nfc origName)).2 k from rfl]
    rw [alset_new _ _ _ (existsRel_false_not_has hk2')]
    exact alget_append_other _ _ _ _ hkey

/-- State for the C6 witness: `t.txt` and `t_1.txt` already exist. -/
def fsC6 : UserFS :=
  ⟨[("t.txt", [9]), ("t_1.txt", [8])], [],
   [("t.txt", .entry ⟨some "1001", none⟩), ("t_1.txt", .entry ⟨some "1001", none⟩)], 0, []⟩

theorem C6_witness :
    ∃ k, 1 ≤ k ∧
      (save_file envW userW [1] "t.txt" "" fsC6).err = none ∧
      (save_file envW userW [1] "t.txt" "" fsC6).name =
        some (candName (splitext (safe_filename envW.nfc "t.txt")).1
          (splitext (safe_filename envW.nfc "t.txt")).2 k) ∧
      existsRel fsC6 (candName (splitext (safe_filename envW.nfc "t.txt")).1
        (splitext (safe_filename envW.nfc "t.txt")).2 k) = false ∧
      (∀ j, 1 ≤ j → j < k →
        existsRel fsC6 (candName (splitext (safe_filename envW.nfc "t.txt")).1
          (splitext (safe_filename envW.nfc "t.txt")).2 j) = true) ∧
      (∀ key, key ≠ candName (splitext (safe_filename envW.nfc "t.txt")).1
          (splitext (safe_filename envW.nfc "t.txt")).2 k →
        alget (save_file envW userW [1] "t.txt" "" fsC6).fs.files key =
          alget fsC6.files key) :=
  C6_auto_rename envW userW [1] "t.txt" fsC6 (by decide) (by decide) (by decide)

/-! Claim C9: share-token round trip. -/

theorem alget_cons {α β : Type} [DecidableEq α] (a : α) (b : β) (rest : List (α × β)) (k : α) :
    alget ((a, b) :: rest) k = if a = k then some b else alget rest k := rfl

theorem alhas_cons {α β : Type} [DecidableEq α] (a : α) (b : β) (rest : List (α × β)) (k : α) :
    alhas ((a, b) :: rest) k = (decide (a = k) || alhas rest k) := rfl

theorem alget_of_alhas {α β : Type} [DecidableEq α] {m : List (α × β)} {k : α}
    (h : alhas m k = true) : ∃ v, alget m k = some v := by
  induction m with
  | nil => simp [alhas] at h
  | cons p rest ih =>
    rcases p with ⟨a, b⟩
    rw [alhas_cons] at h
    by_cases hk : a = k
    · exact ⟨b, by rw [alget_cons, if_pos hk]⟩
    · rw [alget_cons, if_neg hk]
      apply ih
      rw [Bool.or_eq_true] at h
      rcases h with h1 | h1
      · exact absurd (by simpa using h1) hk
      · exact h1

/-- Share-token field update performed by `generate_share_token`. -/
def setTok (token : String) : MetaVal → MetaVal
  | .legacy h => .entry ⟨some h, some token⟩
  | .entry e => .entry ⟨e.hash, some token⟩

theorem generate_share_token_eq (env : Env) (fs : UserFS) (fn : String)
    (h : alhas (load_metadata fs.metadata) fn = true) :
    generate_share_token env fs fn =
      (some env.uuid,
       { fs with
          metadata := (load_metadata fs.metadata).map
            (fun p => if p.1 = fn then (p.1, setTok env.uuid p.2) else p),
          metaSize := env.encSize ((load_metadata fs.metadata).map
            (fun p => if p.1 = fn then (p.1, setTok env.uuid p.2) else p)) }) := by
  unfold generate_share_token
  rw [if_neg (by simp [h])]
  have hfun : ∀ (p : String × MetaVal),
      (if p.1 = fn then
        (p.1, match p.2 with
          | .legacy h => MetaVal.entry ⟨some h, some env.uuid⟩
          | .entry e => MetaVal.entry ⟨e.hash, some env.uuid⟩)
      else p) = (if p.1 = fn then (p.1, setTok env.uuid p.2) else p) := by
    intro p
    by_cases hk : p.1 = fn
    · rw [if_pos hk, if_pos hk]
      cases p.2 <;> rfl
    · rw [if_neg hk, if_neg hk]
  simp only [hfun]

theorem migrateVal_entry (v : MetaVal) : ∃ e, migrateVal v = .entry e := by
  cases v with
  | legacy h => exact ⟨⟨some h, none⟩, rfl⟩
  | entry e => exact ⟨e, rfl⟩

theorem migrateVal_idem (v : MetaVal) : migrateVal (migrateVal v) = migrateVal v := by
  cases v <;> rfl

theorem load_metadata_idem (m : Metadata) : load_metadata (load_metadata m) = load_metadata m := by
  unfold load_metadata
  rw [List.map_map]
  apply List.map_congr_left
  intro p _
  show (p.1, migrateVal (migrateVal p.2)) = (p.1, migrateVal p.2)
  rw [migrateVal_idem]

/-- The per-entry matcher of `get_file_by_token`. -/
theorem inner_scan_none (uuid uname : String) (m : Metadata)
    (hfresh : ∀ p ∈ m, ∀ e, p.2 = MetaVal.entry e → e.shareToken ≠ some uuid) :
    (load_metadata m).findSome? (fun p =>
      match p.2 with
      | .entry e => if e.shareToken = some uuid then some (uname, p.1) else none
      | .legacy _ => none) = none := by
  rw [List.findSome?_eq_none_iff]
  intro p hp
  unfold load_metadata at hp
  rw [List.mem_map] at hp
  obtain ⟨q, hq, hpq⟩ := hp
  cases hv : q.2 with
  | legacy s =>
    rw [← hpq]
    show (match migrateVal q.2 with
      | .entry e => if e.shareToken = some uuid then some (uname, q.1) else none
      | .legacy _ => none) = none
    rw [hv]
    show (if (none : Option String) = some uuid then some (uname, q.1) else none) = none
    rw [if_neg (by simp)]
  | entry e =>
    rw [← hpq]
    show (match migrateVal q.2 with
      | .entry e => if e.shareToken = some uuid then some (uname, q.1) else none
      | .legacy _ => none) = none
    rw [hv]
    show (if e.shareToken = some uuid then some (uname, q.1) else none) = none
    rw [if_neg (hfresh q hq e hv)]

theorem fresh_load {uuid : String} {md : Metadata}
    (h : ∀ p ∈ md, ∀ e, p.2 = MetaVal.entry e → e.shareToken ≠ some uuid) :
    ∀ p ∈ load_metadata md, ∀ e, p.2 = MetaVal.entry e → e.shareToken ≠ some uuid := by
  intro p hp e he
  unfold load_metadata at hp
  rw [List.mem_map] at hp
  obtain ⟨q, hq, hpq⟩ := hp
  rw [← hpq] at he
  cases hv : q.2 with
  | legacy s =>
    rw [show (q.1, migrateVal q.2).2 = migrateVal q.2 from rfl, hv] at he
    have he' : (⟨some s, none⟩ : MetaEntry) = e := by
      simpa [migrateVal] using he
    rw [← he']
    simp
  | entry e' =>
    rw [show (q.1, migrateVal q.2).2 = migrateVal q.2 from rfl, hv] at he
    have he' : e' = e := by simpa [migrateVal] using he
    rw [← he']
    exact h q hq e' hv

theorem load_metadata_of_entry {m : Metadata}
    (h : ∀ p ∈ m, ∃ e, p.2 = MetaVal.entry e) : load_metadata m = m := by
  unfold load_metadata
  conv_rhs => rw [← List.map_id m]
  apply List.map_congr_left
  intro p hp
  obtain ⟨e, he⟩ := p |> h <| hp
  show (p.1, migrateVal p.2) = p
  rcases p with ⟨a, v⟩
  simp only at he
  rw [he]
  rfl

theorem md1_entries (md : Metadata) (uuid fn : String) :
    ∀ p ∈ (load_metadata md).map (fun p => if p.1 = fn then (p.1, setTok uuid p.2) else p),
      ∃ e, p.2 = MetaVal.entry e := by
  intro p hp
  rw [List.mem_map] at hp
  obtain ⟨q, hq, hpq⟩ := hp
  have hqe : ∃ e, q.2 = MetaVal.entry e := by
    unfold load_metadata at hq
    rw [List.mem_map] at hq
    obtain ⟨r, -, hr⟩ := hq
    rw [← hr]
    exact migrateVal_entry r.2
  by_cases hk : q.1 = fn
  · rw [← hpq, if_pos hk]
    cases q.2 <;> exact ⟨_, rfl⟩
  · rw [← hpq, if_neg hk]
    exact hqe

theorem scan_updated (uuid uid fn : String) : ∀ (m : Metadata),
    (∀ p ∈ m, ∀ e, p.2 = MetaVal.entry e → e.shareToken ≠ some uuid) →
    alhas m fn = true →
    (m.map (fun p => if p.1 = fn then (p.1, setTok uuid p.2) else p)).findSome?
      (fun p => match p.2 with
        | .entry e => if e.shareToken = some uuid then some (uid, p.1) else none
        | .legacy _ => none) = some (uid, fn) := by
  intro m
  induction m with
  | nil =>
    intro _ h
    simp [alhas] at h
  | cons q rest ih =>
    intro hfresh hhas
    rcases q with ⟨a, v⟩
    rw [List.map_cons]
    by_cases hk : a = fn
    · rw [show (if ((a, v) : String × MetaVal).1 = fn
        then (((a, v) : String × MetaVal).1, setTok uuid ((a, v) : String × MetaVal).2)
        else (a, v)) = (a, setTok uuid v) by rw [if_pos hk]]
      rw [List.findSome?_cons]
      cases v with
      | legacy s => simp [setTok, hk]
      | entry e => simp [setTok, hk]
    · rw [show (if ((a, v) : String × MetaVal).1 = fn
        then (((a, v) : String × MetaVal).1, setTok uuid ((a, v) : String × MetaVal).2)
        else (a, v)) = (a, v) by rw [if_neg hk]]
      rw [List.findSome?_cons]
      have hfv : (match ((a, v) : String × MetaVal).2 with
          | MetaVal.entry e => if e.shareToken = some uuid then some (uid, ((a, v) : String × MetaVal).1) else none
          | MetaVal.legacy _ => none) = none := by
        cases v with
        | legacy s => rfl
        | entry e =>
          show (if e.shareToken = some uuid then some (uid, a) else none) = none
          rw [if_neg (hfresh (a, MetaVal.entry e) (by simp) e rfl)]
      rw [hfv]
      have hhas' : alhas rest fn = true := by
        rw [alhas_cons] at hhas
        rw [Bool.or_eq_true] at hhas
        rcases hhas with h1 | h1
        · exact absurd (by simpa using h1) hk
        · exact h1
      exact ih (fun p hp e he => hfresh p (by simp [hp]) e he) hhas'

theorem outer_scan_all_none (uuid : String) : ∀ store : Store,
    (∀ u ∈ store, ∀ p ∈ u.2, ∀ e, p.2 = MetaVal.entry e → e.shareToken ≠ some uuid) →
    store.findSome? (fun u =>
      if u.1 = "temp" then none
      else (load_metadata u.2).findSome? (fun p =>
        match p.2 with
        | .entry e => if e.shareToken = some uuid then some (u.1, p.1) else none
        | .legacy _ => none)) = none := by
  intro store h
  rw [List.findSome?_eq_none_iff]
  intro u hu
  by_cases ht : u.1 = "temp"
  · rw [if_pos ht]
  · rw [if_neg ht]
    exact inner_scan_none uuid u.1 u.2 (h u hu)

theorem outer_scan_map (uuid uid fn : String) (md1 : Metadata) (huid : uid ≠ "temp")
    (hinner : (load_metadata md1).findSome? (fun p =>
      match p.2 with
      | .entry e => if e.shareToken = some uuid then some (uid, p.1) else none
      | .legacy _ => none) = some (uid, fn)) :
    ∀ store : Store,
    (∀ u ∈ store, ∀ p ∈ u.2, ∀ e, p.2 = MetaVal.entry e → e.shareToken ≠ some uuid) →
    alhas store uid = true →
    (store.map (fun u => if u.1 = uid then (uid, md1) else u)).findSome? (fun u =>
      if u.1 = "temp" then none
      else (load_metadata u.2).findSome? (fun p =>
        match p.2 with
        | .entry e => if e.shareToken = some uuid then some (u.1, p.1) else none
        | .legacy _ => none)) = some (uid, fn) := by
  intro store
  induction store with
  | nil =>
    intro _ h
    simp [alhas] at h
  | cons u rest ih =>
    intro hfresh hhas
    rcases u with ⟨a, m⟩
    rw [List.map_cons]
    by_cases hk : a = uid
    · rw [show (if ((a, m) : String × Metadata).1 = uid then (uid, md1) else (a, m)) =
        (uid, md1) by rw [if_pos hk]]
      rw [List.findSome?_cons]
      rw [show (if ((uid, md1) : String × Metadata).1 = "temp" then none
        else (load_metadata ((uid, md1) : String × Metadata).2).findSome? (fun p =>
          match p.2 with
          | MetaVal.entry e => if e.shareToken = some uuid then
              some (((uid, md1) : String × Metadata).1, p.1) else none
          | MetaVal.legacy _ => none)) = some (uid, fn) by
        rw [if_neg huid]
        exact hinner]
    · rw [show (if ((a, m) : String × Metadata).1 = uid then (uid, md1) else (a, m)) =
        (a, m) by rw [if_neg hk]]
      rw [List.findSome?_cons]
      have hnone : (if ((a, m) : String × Metadata).1 = "temp" then none
          else (load_metadata ((a, m) : String × Metadata).2).findSome? (fun p =>
            match p.2 with
            | MetaVal.entry e => if e.shareToken = some uuid then
                some (((a, m) : String × Metadata).1, p.1) else none
            | MetaVal.legacy _ => none)) = none := by
        by_cases ht : a = "temp"
        · rw [if_pos ht]
        · rw [if_neg ht]
          exact inner_scan_none uuid a m (hfresh (a, m) (by simp))
      rw [hnone]
      have hhas' : alhas rest uid = true := by
        rw [alhas_cons] at hhas
        rw [Bool.or_eq_true] at hhas
        rcases hhas with h1 | h1
        · exact absurd (by simpa using h1) hk
        · exact h1
      exact ih (fun u hu => hfresh u (by simp [hu])) hhas'

theorem mem_of_alget {α β : Type} [DecidableEq α] {m : List (α × β)} {k : α} {v : β}
    (h : alget m k = some v) : (k, v) ∈ m := by
  induction m with
  | nil => simp [alget] at h
  | cons p rest ih =>
    rcases p with ⟨a, b⟩
    rw [alget_cons] at h
    by_cases hk : a = k
    · rw [if_pos hk] at h
      have hb : b = v := by simpa using h
      exact List.mem_cons.mpr (Or.inl (by rw [← hk, hb]))
    · rw [if_neg hk] at h
      exact List.mem_cons.mpr (Or.inr (ih h))

theorem alget_map_keyfun {β : Type} (m : List (String × β)) (fn : String) (g : β → β) :
    alget (m.map (fun p => if p.1 = fn then (p.1, g p.2) else p)) fn =
      (alget m fn).map g := by
  induction m with
  | nil => rfl
  | cons p rest ih =>
    rcases p with ⟨a, b⟩
    rw [List.map_cons]
    by_cases hk : a = fn
    · rw [show (if ((a, b) : String × β).1 = fn then (((a, b) : String × β).1, g b) else (a, b)) =
        (a, g b) by rw [if_pos hk]]
      rw [alget_cons, alget_cons, if_pos hk, if_pos hk]
      rfl
    · rw [show (if ((a, b) : String × β).1 = fn then (((a, b) : String × β).1, g b) else (a, b)) =
        (a, b) by rw [if_neg hk]]
      rw [alget_cons, alget_cons, if_neg hk, if_neg hk, ih]

theorem alhas_map_keyfun {β : Type} (m : List (String × β)) (fn k : String) (g : β → β) :
    alhas (m.map (fun p => if p.1 = fn then (p.1, g p.2) else p)) k = alhas m k := by
  induction m with
  | nil => rfl
  | cons p rest ih =>
    rcases p with ⟨a, b⟩
    rw [List.map_cons]
    by_cases hk : a = fn
    · rw [show (if ((a, b) : String × β).1 = fn then (((a, b) : String × β).1, g b) else (a, b)) =
        (a, g b) by rw [if_pos hk]]
      rw [alhas_cons, alhas_cons, ih]
    · rw [show (if ((a, b) : String × β).1 = fn then (((a, b) : String × β).1, g b) else (a, b)) =
        (a, b) by rw [if_neg hk]]
      rw [alhas_cons, alhas_cons, ih]

theorem setTok_entry (token : String) (v : MetaVal) :
    ∃ e : MetaEntry, setTok token v = MetaVal.entry e ∧ e.shareToken = some token := by
  cases v with
  | legacy s => exact ⟨⟨some s, some token⟩, rfl, rfl⟩
  | entry e => exact ⟨⟨e.hash, some token⟩, rfl, rfl⟩

/-- Share token carried by a stored metadata value. -/
def tokOf : MetaVal → Option String
  | .legacy _ => none
  | .entry e => e.shareToken

theorem md1_fresh_off_key {uuid fn : String} {md : Metadata}
    (hfresh : ∀ p ∈ md, ∀ e, p.2 = MetaVal.entry e → e.shareToken ≠ some uuid) :
    ∀ q ∈ (load_metadata md).map (fun p => if p.1 = fn then (p.1, setTok uuid p.2) else p),
      q.1 ≠ fn → ∀ e, q.2 = MetaVal.entry e → e.shareToken ≠ some uuid := by
  intro q hq hne e he
  rw [List.mem_map] at hq
  obtain ⟨r, hr, hrq⟩ := hq
  by_cases hk : r.1 = fn
  · exfalso
    rw [← hrq, if_pos hk] at hne
    exact hne hk
  · rw [← hrq, if_neg hk] at he
    exact fresh_load hfresh r hr e he

/-- C9: issuing a share token on a file with a metadata entry returns
the freshly generated uuid; resolving that token over the updated store
yields the same (user, path); after revoking the token on that path,
resolving it yields (None, None). -/
theorem C9_share_roundtrip (env : Env) (store : Store) (uid : String) (md : Metadata)
    (fn : String)
    (hmem : alget store uid = some md)
    (huid : uid ≠ "temp")
    (hfn : alhas (load_metadata md) fn = true)
    (hfresh0 : ∀ u ∈ store, ∀ p ∈ u.2, tokOf p.2 ≠ some env.uuid) :
    (generate_share_token env ⟨[], [], md, 0, []⟩ fn).1 = some env.uuid ∧
    get_file_by_token
      (alset store uid (generate_share_token env ⟨[], [], md, 0, []⟩ fn).2.metadata)
      env.uuid = (some uid, some fn) ∧
    get_file_by_token
      (alset store uid (revoke_share_token env
        (generate_share_token env ⟨[], [], md, 0, []⟩ fn).2 fn).2.metadata)
      env.uuid = (none, none) := by
  have hfresh : ∀ u ∈ store, ∀ p ∈ u.2, ∀ e, p.2 = MetaVal.entry e →
      e.shareToken ≠ some env.uuid := by
    intro u hu p hp e he
    have h0 := hfresh0 u hu p hp
    rw [he] at h0
    exact h0
  have hgen := generate_share_token_eq env ⟨[], [], md, 0, []⟩ fn hfn
  have hhas : alhas store uid = true := alhas_of_alget hmem
  have hfreshmd : ∀ p ∈ md, ∀ e, p.2 = MetaVal.entry e → e.shareToken ≠ some env.uuid :=
    hfresh (uid, md) (mem_of_alget hmem)
  have hload1 : load_metadata ((load_metadata md).map
      (fun p => if p.1 = fn then (p.1, setTok env.uuid p.2) else p)) =
      (load_metadata md).map (fun p => if p.1 = fn then (p.1, setTok env.uuid p.2) else p) :=
    load_metadata_of_entry (md1_entries md env.uuid fn)
  have hinner : (load_metadata ((load_metadata md).map
      (fun p => if p.1 = fn then (p.1, setTok env.uuid p.2) else p))).findSome? (fun p =>
        match p.2 with
        | MetaVal.entry e => if e.shareToken = some env.uuid then some (uid, p.1) else none
        | MetaVal.legacy _ => none) = some (uid, fn) := by
    rw [hload1]
    exact scan_updated env.uuid uid fn (load_metadata md) (fresh_load hfreshmd) hfn
  refine ⟨by rw [hgen], ?_, ?_⟩
  · rw [hgen]
    show get_file_by_token (alset store uid ((load_metadata md).map
      (fun p => if p.1 = fn then (p.1, setTok env.uuid p.2) else p))) env.uuid =
      (some uid, some fn)
    unfold get_file_by_token
    rw [show alset store uid ((load_metadata md).map
        (fun p => if p.1 = fn then (p.1, setTok env.uuid p.2) else p)) =
      store.map (fun u => if u.1 = uid then (uid, (load_metadata md).map
        (fun p => if p.1 = fn then (p.1, setTok env.uuid p.2) else p)) else u) by
        unfold alset
        rw [if_pos hhas]]
    rw [outer_scan_map env.uuid uid fn _ huid hinner store hfresh hhas]
  · rw [hgen]
    obtain ⟨v0, hv0⟩ := alget_of_alhas hfn
    obtain ⟨e1, he1, -⟩ := setTok_entry env.uuid v0
    have hget1 : alget ((load_metadata md).map
        (fun p => if p.1 = fn then (p.1, setTok env.uuid p.2) else p)) fn =
        some (MetaVal.entry e1) := by
      rw [alget_map_keyfun, hv0]
      show some (setTok env.uuid v0) = some (MetaVal.entry e1)
      rw [he1]
    have hrev : (revoke_share_token env
        ⟨[], [], (load_metadata md).map
          (fun p => if p.1 = fn then (p.1, setTok env.uuid p.2) else p),
          env.encSize ((load_metadata md).map
            (fun p => if p.1 = fn then (p.1, setTok env.uuid p.2) else p)), []⟩ fn).2.metadata =
        alset ((load_metadata md).map
          (fun p => if p.1 = fn then (p.1, setTok env.uuid p.2) else p)) fn
          (MetaVal.entry ⟨e1.hash, none⟩) := by
      simp only [revoke_share_token]
      rw [hload1, hget1]
    rw [hrev]
    have hhas1 : alhas ((load_metadata md).map
        (fun p => if p.1 = fn then (p.1, setTok env.uuid p.2) else p)) fn = true := by
      rw [alhas_map_keyfun]
      exact hfn
    have hset2 : alset ((load_metadata md).map
        (fun p => if p.1 = fn then (p.1, setTok env.uuid p.2) else p)) fn
        (MetaVal.entry ⟨e1.hash, none⟩) =
        ((load_metadata md).map (fun p => if p.1 = fn then (p.1, setTok env.uuid p.2) else p)).map
          (fun p => if p.1 = fn then (fn, MetaVal.entry ⟨e1.hash, none⟩) else p) := by
      unfold alset
      rw [if_pos hhas1]
    have hfresh2 : ∀ u ∈ alset store uid (alset ((load_metadata md).map
        (fun p => if p.1 = fn then (p.1, setTok env.uuid p.2) else p)) fn
        (MetaVal.entry ⟨e1.hash, none⟩)),
        ∀ p ∈ u.2, ∀ e, p.2 = MetaVal.entry e → e.shareToken ≠ some env.uuid := by
      intro u hu p hp e he
      rw [show alset store uid (alset ((load_metadata md).map
          (fun p => if p.1 = fn then (p.1, setTok env.uuid p.2) else p)) fn
          (MetaVal.entry ⟨e1.hash, none⟩)) =
        store.map (fun u => if u.1 = uid then (uid, alset ((load_metadata md).map
          (fun p => if p.1 = fn then (p.1, setTok env.uuid p.2) else p)) fn
          (MetaVal.entry ⟨e1.hash, none⟩)) else u) by
          unfold alset
          rw [if_pos hhas]] at hu
      rw [List.mem_map] at hu
      obtain ⟨q, hq, hqu⟩ := hu
      by_cases hk : q.1 = uid
      · rw [← hqu, if_pos hk] at hp
        rw [hset2] at hp
        simp only at hp
        rw [List.mem_map] at hp
        obtain ⟨r, hr, hrp⟩ := hp
        by_cases hrk : r.1 = fn
        · rw [← hrp, if_pos hrk] at he
          have : (⟨e1.hash, none⟩ : MetaEntry) = e := by simpa using he
          rw [← this]
          simp
        · rw [← hrp, if_neg hrk] at he
          exact md1_fresh_off_key hfreshmd r hr hrk e he
      · rw [← hqu, if_neg hk] at hp
        exact hfresh q hq p hp e he
    show get_file_by_token _ env.uuid = (none, none)
    unfold get_file_by_token
    rw [outer_scan_all_none env.uuid _ hfresh2]

/-- Store for the C9 witness: user 1 with a legacy and a structured
entry, user 2 with an unrelated share token already issued. -/
def mdC9 : Metadata := [("a.txt", .legacy "h0"), ("b.txt", .entry ⟨some "h1", none⟩)]

def storeC9 : Store :=
  [("1", mdC9), ("2", [("c.txt", .entry ⟨some "h2", some "tok2"⟩)])]

theorem C9_witness :
    (generate_share_token envW ⟨[], [], mdC9, 0, []⟩ "b.txt").1 = some "uuid-w" ∧
    get_file_by_token (alset storeC9 "1"
      (generate_share_token envW ⟨[], [], mdC9, 0, []⟩ "b.txt").2.metadata) "uuid-w" =
      (some "1", some "b.txt") ∧
    get_file_by_token (alset storeC9 "1"
      (revoke_share_token envW
        (generate_share_token envW ⟨[], [], mdC9, 0, []⟩ "b.txt").2 "b.txt").2.metadata)
      "uuid-w" = (none, none) :=
  C9_share_roundtrip envW storeC9 "1" mdC9 "b.txt" (by decide) (by decide) (by decide) (by decide)

/-! Claim C4: recompute scope after deletes. -/

theorem dedup_aux_nodup : ∀ (l acc : List String), acc.Nodup →
    (l.foldl (fun acc s => if acc.contains s then acc else acc ++ [s]) acc).Nodup := by
  intro l
  induction l with
  | nil => intro acc h; exact h
  | cons a rest ih =>
    intro acc h
    rw [List.foldl_cons]
    by_cases hc : acc.contains a = true
    · rw [if_pos hc]
      exact ih acc h
    · rw [if_neg hc]
      apply ih
      have ha : a ∉ acc := by
        intro hm
        exact hc (List.elem_iff.mpr hm)
      simpa [List.nodup_append, h] using ha

theorem dedup_aux_mem : ∀ (l acc : List String) (x : String),
    x ∈ (l.foldl (fun acc s => if acc.contains s then acc else acc ++ [s]) acc) ↔
      x ∈ acc ∨ x ∈ l := by
  intro l
  induction l with
  | nil => intro acc x; simp
  | cons a rest ih =>
    intro acc x
    rw [List.foldl_cons]
    by_cases hc : acc.contains a = true
    · rw [if_pos hc, ih]
      constructor
      · rintro (h | h)
        · exact Or.inl h
        · exact Or.inr (List.mem_cons.mpr (Or.inr h))
      · rintro (h | h)
        · exact Or.inl h
        · rcases List.mem_cons.mp h with rfl | h
          · exact Or.inl (List.elem_iff.mp hc)
          · exact Or.inr h
    · rw [if_neg hc, ih]
      constructor
      · rintro (h | h)
        · rcases List.mem_append.mp h with h | h
          · exact Or.inl h
          · exact Or.inr (List.mem_cons.mpr (Or.inl (by simpa using h)))
        · exact Or.inr (List.mem_cons.mpr (Or.inr h))
      · rintro (h | h)
        · exact Or.inl (List.mem_append.mpr (Or.inl h))
        · rcases List.mem_cons.mp h with rfl | h
          · exact Or.inl (List.mem_append.mpr (Or.inr (by simp)))
          · exact Or.inr h

theorem dedup_nodup (l : List String) : (dedup l).Nodup :=
  dedup_aux_nodup l [] List.nodup_nil

theorem mem_dedup {l : List String} {x : String} : x ∈ dedup l ↔ x ∈ l := by
  unfold dedup
  rw [dedup_aux_mem]
  simp

theorem takeWhile_all {α : Type} (p : α → Bool) : ∀ l : List α,
    (∀ a ∈ l, p a = true) → l.takeWhile p = l := by
  intro l
  induction l with
  | nil => intro _; rfl
  | cons a rest ih =>
    intro h
    rw [List.takeWhile_cons, if_pos (h a (by simp))]
    rw [ih (fun x hx => h x (by simp [hx]))]

theorem firstSeg_of_no_slash {s : String} (h : ∀ c ∈ s.data, c ≠ '/') : firstSeg s = s := by
  unfold firstSeg
  apply str_ext
  show s.data.takeWhile (fun c => c != '/') = s.data
  exact takeWhile_all _ s.data (fun c hc => by simpa using h c hc)

/-- Well-formedness of the on-disk model: file keys are unique,
non-empty and no regular-file path is simultaneously a directory. -/
def WFfs (fs : UserFS) : Prop :=
  (fs.files.map (fun p => p.1)).Nodup ∧
  ∀ p ∈ fs.files, p.1 ≠ "" ∧ isDirEntry fs p.1 = false

/-- Top-level regular file: key without separator, not the metadata
document. -/
def topLevelFile (p : String × List Nat) : Bool :=
  !p.1.data.contains '/' && p.1 != "metadata.json"

theorem alget_eq_of_mem_nodup {α β : Type} [DecidableEq α] {m : List (α × β)}
    (hnd : (m.map (fun p => p.1)).Nodup) {p : α × β} (hp : p ∈ m) :
    alget m p.1 = some p.2 := by
  induction m with
  | nil => simp at hp
  | cons q rest ih =>
    rcases q with ⟨a, b⟩
    rw [List.map_cons, List.nodup_cons] at hnd
    rw [alget_cons]
    rcases List.mem_cons.mp hp with heq | hp'
    · subst heq
      simp
    · by_cases hk : a = p.1
      · exfalso
        apply hnd.1
        rw [hk]
        exact List.mem_map.mpr ⟨p, hp', rfl⟩
      · rw [if_neg hk]
        exact ih hnd.2 hp'

theorem sum_filterMap {α β : Type} (l : List α) (g : α → Option β) (f : β → Nat) :
    ((l.filterMap g).map f).sum =
      (l.map (fun a => match g a with | some b => f b | none => 0)).sum := by
  induction l with
  | nil => rfl
  | cons a rest ih =>
    rw [List.filterMap_cons, List.map_cons]
    cases hg : g a with
    | none => simpa using ih
    | some b => simpa using ih

theorem sum_map_ite (l : List String) (cond : String → Bool) (f : String → Nat) :
    (l.map (fun n => if cond n then f n else 0)).sum = ((l.filter cond).map f).sum := by
  induction l with
  | nil => rfl
  | cons a rest ih =>
    rw [List.map_cons, List.filter_cons]
    by_cases hc : cond a = true
    · rw [if_pos hc, if_pos hc, List.map_cons]
      simp [ih]
    · have hc' : cond a = false := by simpa using hc
      rw [hc']
      simp [ih]

theorem firstSeg_no_slash (s : String) : ∀ c ∈ (firstSeg s).data, c ≠ '/' := by
  intro c hc
  unfold firstSeg at hc
  have := List.mem_takeWhile_imp (show c ∈ s.data.takeWhile (fun c => c != '/') from hc)
  simpa using this

theorem mem_listdir_no_slash {fs : UserFS} {n : String} (h : n ∈ listdir fs "") :
    ∀ c ∈ n.data, c ≠ '/' := by
  unfold listdir at h
  rw [mem_dedup, List.mem_filterMap] at h
  obtain ⟨q, -, hq⟩ := h
  unfold childName at hq
  rw [if_pos rfl] at hq
  by_cases hq0 : q = ""
  · rw [if_pos hq0] at hq
    exact absurd hq (by simp)
  · rw [if_neg hq0] at hq
    have : firstSeg q = n := by simpa using hq
    rw [← this]
    exact firstSeg_no_slash q

theorem alhas_mem {α β : Type} [DecidableEq α] {m : List (α × β)} {k : α}
    (h : alhas m k = true) : ∃ p ∈ m, p.1 = k := by
  unfold alhas at h
  rw [List.any_eq_true] at h
  obtain ⟨p, hp, hpk⟩ := h
  exact ⟨p, hp, by simpa using hpk⟩

theorem mem_alhas {α β : Type} [DecidableEq α] {m : List (α × β)} {p : α × β}
    (h : p ∈ m) : alhas m p.1 = true := by
  unfold alhas
  rw [List.any_eq_true]
  exact ⟨p, h, by simp⟩

/-- Size contributed by one name of the root listing. -/
def rootSize (fs : UserFS) (n : String) : Nat :=
  if isDirEntry fs n then 0
  else if alhas fs.files n && n != "metadata.json" then ((alget fs.files n).getD []).length
  else 0

/-- Name reported as a regular file by the root listing. -/
def fileish (fs : UserFS) (n : String) : Bool :=
  !isDirEntry fs n && (alhas fs.files n && n != "metadata.json")

theorem rootSize_ite (fs : UserFS) (n : String) :
    rootSize fs n = if fileish fs n then ((alget fs.files n).getD []).length else 0 := by
  unfold rootSize fileish
  by_cases h1 : isDirEntry fs n = true
  · simp [h1]
  · have h1' : isDirEntry fs n = false := by simpa using h1
    by_cases h2 : (alhas fs.files n && (n != "metadata.json")) = true
    · simp [h1', h2]
    · have h2' : (alhas fs.files n && (n != "metadata.json")) = false := by simpa using h2
      simp [h1', h2']

theorem get_user_files_root_sum (fs : UserFS) (uid : Nat) :
    ((get_user_files fs uid "").map (fun fi => fi.size)).sum =
      ((listdir fs "").map (rootSize fs)).sum := by
  unfold get_user_files
  rw [if_neg (by rw [hsec_root uid]; simp)]
  rw [sum_filterMap]
  apply congrArg List.sum
  apply List.map_congr_left
  intro n _
  have hrel : relJoin "" n = n := by simp [relJoin]
  rw [rootSize_ite]
  unfold fileish
  simp only [hrel]
  cases h1 : isDirEntry fs n with
  | true => simp
  | false =>
    cases h2 : alhas fs.files n with
    | false => simp
    | true =>
      by_cases h3 : n = "metadata.json"
      · simp [h3]
      · simp [h3]

theorem listdir_root_perm (fs : UserFS) (hwf : WFfs fs) :
    List.Perm ((listdir fs "").filter (fileish fs))
      ((fs.files.filter topLevelFile).map (fun p => p.1)) := by
  have hl : (listdir fs "").Nodup := by
    unfold listdir
    exact dedup_nodup _
  have hnd1 : ((listdir fs "").filter (fileish fs)).Nodup := hl.filter _
  have hnd2 : ((fs.files.filter topLevelFile).map (fun p => p.1)).Nodup :=
    hwf.1.sublist ((List.filter_sublist fs.files).map (fun p => p.1))
  rw [List.perm_ext_iff_of_nodup hnd1 hnd2]
  intro n
  constructor
  · intro hn
    rw [List.mem_filter] at hn
    obtain ⟨hmem, hfl⟩ := hn
    unfold fileish at hfl
    rw [Bool.and_eq_true, Bool.and_eq_true] at hfl
    obtain ⟨hdir, hhas, hmeta⟩ := hfl
    obtain ⟨p, hp, hpk⟩ := alhas_mem hhas
    rw [List.mem_map]
    refine ⟨p, ?_, hpk⟩
    rw [List.mem_filter]
    refine ⟨hp, ?_⟩
    unfold topLevelFile
    rw [Bool.and_eq_true]
    constructor
    · have hns := mem_listdir_no_slash hmem
      rw [hpk]
      simp only [Bool.not_eq_true']
      rw [show (n.data.contains '/' = false) ↔ '/' ∉ n.data by simp]
      intro hsl
      exact hns '/' hsl rfl
    · rw [hpk]
      exact hmeta
  · intro hn
    rw [List.mem_map] at hn
    obtain ⟨p, hpf, hpk⟩ := hn
    rw [List.mem_filter] at hpf
    obtain ⟨hp, htop⟩ := hpf
    unfold topLevelFile at htop
    rw [Bool.and_eq_true] at htop
    obtain ⟨hnsl, hmeta⟩ := htop
    have hnsl' : ∀ c ∈ n.data, c ≠ '/' := by
      intro c hc he
      rw [← hpk] at hc
      subst he
      rw [Bool.not_eq_true'] at hnsl
      rw [show (p.1.data.contains '/' = false) ↔ '/' ∉ p.1.data by simp] at hnsl
      exact hnsl hc
    have hne : n ≠ "" := by
      rw [← hpk]
      exact (hwf.2 p hp).1
    rw [List.mem_filter]
    constructor
    · unfold listdir
      rw [mem_dedup, List.mem_filterMap]
      refine ⟨n, ?_, ?_⟩
      · apply List.mem_append.mpr
        apply Or.inl
        rw [← hpk]
        exact List.mem_map.mpr ⟨p, hp, rfl⟩
      · unfold childName
        rw [if_pos rfl, if_neg hne]
        rw [firstSeg_of_no_slash hnsl']
    · unfold fileish
      rw [Bool.and_eq_true, Bool.and_eq_true]
      refine ⟨?_, ?_, ?_⟩
      · rw [Bool.not_eq_true']
        rw [← hpk]
        exact (hwf.2 p hp).2
      · rw [← hpk]
        exact mem_alhas hp
      · rw [← hpk]
        exact hmeta

theorem sum_root_listing (fs : UserFS) (uid : Nat) (hwf : WFfs fs) :
    ((get_user_files fs uid "").map (fun fi => fi.size)).sum =
      ((fs.files.filter topLevelFile).map (fun p => p.2.length)).sum := by
  rw [get_user_files_root_sum]
  rw [List.map_congr_left (fun n _ => rootSize_ite fs n)]
  rw [sum_map_ite]
  rw [((listdir_root_perm fs hwf).map (fun n => ((alget fs.files n).getD []).length)).sum_eq]
  rw [List.map_map]
  apply congrArg List.sum
  apply List.map_congr_left
  intro p hp
  rw [List.mem_filter] at hp
  show ((alget fs.files p.1).getD []).length = p.2.length
  rw [alget_eq_of_mem_nodup hwf.1 hp.1]
  rfl

/-- A root with one top-level file and one file inside a subfolder. -/
def fsC4 : UserFS :=
  { files := [("a.txt", [1, 2, 3]), ("docs/b.txt", [1, 1, 1, 1, 1])],
    dirs := ["docs"],
    metadata := [],
    metaSize := 0,
    tempChunks := [] }

/-- C4 counterexample: deleting the top-level file `a.txt` succeeds, and
the route recomputes `used_bytes` from the root listing only, giving 0,
while 5 bytes (`docs/b.txt`) are still physically present under the
user's root. -/
theorem C4_counterexample :
    (delete_user_file envW fsC4 "a.txt").1 = true ∧
    (delete_file_route envW userW "a.txt" fsC4).1.used_bytes = 0 ∧
    walk_total (delete_file_route envW userW "a.txt" fsC4).2 = 5 := by
  refine ⟨by decide, by decide, by decide⟩

/-- C4 (amended): after a folder delete the route recomputes
`used_bytes` by walking the whole tree, so it equals the physical byte
total of everything under the root, metadata.json included; after a
successful file delete the route recomputes from the root listing of
`get_user_files`, so `used_bytes` equals the total size of the
top-level regular files only — files inside subfolders are not
counted. -/
theorem C4_recompute_scope (env : Env) (user : UserRec) (fname folder : String) (fs : UserFS)
    (hwf : WFfs (delete_user_file env fs fname).2)
    (hok : (delete_user_file env fs fname).1 = true) :
    (delete_folder_route env user folder fs).1.used_bytes
        = walk_total (delete_folder_route env user folder fs).2 ∧
    (delete_file_route env user fname fs).1.used_bytes
        = (((delete_file_route env user fname fs).2.files.filter topLevelFile).map
            (fun p => p.2.length)).sum := by
  constructor
  · rfl
  · simp only [delete_file_route, hok, if_true]
    exact sum_root_listing _ user.id hwf

/-- C4 witness: the amended theorem applied to the two-file fixture,
deleting file `a.txt` resp. folder `docs`. -/
theorem C4_witness :
    (WFfs (delete_user_file envW fsC4 "a.txt").2 ∧
      (delete_user_file envW fsC4 "a.txt").1 = true) ∧
    ((delete_folder_route envW userW "docs" fsC4).1.used_bytes
        = walk_total (delete_folder_route envW userW "docs" fsC4).2 ∧
     (delete_file_route envW userW "a.txt" fsC4).1.used_bytes
        = (((delete_file_route envW userW "a.txt" fsC4).2.files.filter topLevelFile).map
            (fun p => p.2.length)).sum) :=
  ⟨⟨⟨by decide, by decide⟩, by decide⟩,
    C4_recompute_scope envW userW "a.txt" "docs" fsC4 ⟨by decide, by decide⟩ (by decide)⟩

end PS
